import Mathlib

/-!
# Verification development for the Tendermint benchmark harness

Shallow embedding of `src/bench_tendermint.go` (closed-loop load generator) and
`src/kvbench/main.go` (open-loop load generator with read-back check).

Conventions of the embedding:
* a Go `[]byte` / `string` is a `List Byte` with `Byte = Fin 256`;
* a Go `int` (64 bits), `int64` or `time.Duration` is an `Int`; wrap-around is written
  explicitly where the Go type is narrower than the values that can reach it;
* a Go `error` result is an `Option` (`none` is `nil`) or an `Except`;
* library routines the sources call (`bytes.Index`, `bytes.Split`, `strconv.Itoa`,
  `encoding/binary`, `encoding/base64`, IEEE-754 `float64` arithmetic) are embedded
  by definitions that follow the Go implementation of the routine.
-/

namespace TendermintBench

/-! ## Bytes -/

/-- A Go byte. -/
abbrev Byte := Fin 256

/-- Go `bytes.Index(s, sep)`: position of the first instance of `sep` in `s`;
`none` stands for the result `-1`. -/
def bytesIndex (s sep : List Byte) : Option Nat :=
  if sep.isPrefixOf s then some 0
  else match s with
    | [] => none
    | _ :: t => (bytesIndex t sep).map (· + 1)

/-- Go `bytes.Contains(b, subslice)`, which is `Index(b, subslice) != -1`. -/
def bytesContains (b subslice : List Byte) : Bool :=
  (bytesIndex b subslice).isSome

/-! ## `bench_tendermint.go`: helpers -/

/-- The literal `"code":0` (with its two double quotes). -/
def codeZeroMarker : List Byte := [34, 99, 111, 100, 101, 34, 58, 48]

/-- Outcome of `client.Do(req)` (after `http.NewRequest`): either an error, or a response
with its status code and the body read by `ioutil.ReadAll`. -/
inductive HttpResult where
  | transportError : HttpResult
  | response : Int → List Byte → HttpResult
  deriving DecidableEq, Repr

/-- A non-nil error returned by `broadcastTxCommit`. -/
inductive TxError where
  | transport : TxError
  | badHTTP : Int → TxError
  | rejected : List Byte → TxError
  deriving DecidableEq, Repr

/-- Go `strings.ReplaceAll(string(body), "\n", " ")`. -/
def flattenNewlines (body : List Byte) : List Byte :=
  body.map (fun b => if b = (10 : Byte) then (32 : Byte) else b)

/-- Go `broadcastTxCommit`, as a function of what the HTTP round trip produced;
`none` is the `nil` error. -/
def broadcastTxCommit : HttpResult → Option TxError
  | .transportError => some .transport
  | .response status body =>
    if body.length = 0 ∨ status ≠ 200 then some (.badHTTP status)
    else if !bytesContains body codeZeroMarker then some (.rejected (flattenNewlines body))
    else none

/-! ## `bench_tendermint.go`: the closed-loop workers -/

/-- Wrap-around of Go `int32` arithmetic. -/
def wrapInt32 (x : Int) : Int := (x + 2 ^ 31) % 2 ^ 32 - 2 ^ 31

/-- Where a worker goroutine stands in its loop: about to claim an index with
`atomic.AddInt32(&sent, 1)`, holding a claimed index `idx < *totalReq` that it builds with
`makeTx` and submits with `broadcastTxCommit`, or returned. -/
inductive Worker where
  | claiming : Worker
  | holding : Int → Worker
  | exited : Worker
  deriving DecidableEq, Repr

/-- State of the closed-loop run: the shared counter `sent` (an `int32`), the workers, and
the indices submitted so far, in the order of submission. -/
structure Pool where
  sent : Int
  workers : List Worker
  submitted : List Int
  deriving DecidableEq, Repr

/-- State after `for i := 0; i < *concur; i++ { go func ... }`: `sent = 0` and `*concur`
workers at the top of their loop (none for `*concur ≤ 0`). -/
def initPool (concur : Int) : Pool := ⟨0, List.replicate concur.toNat .claiming, []⟩

/-- One atomic action of worker `w`.  A claiming worker performs
`idx := int(atomic.AddInt32(&sent, 1)) - 1` and returns when `idx >= *totalReq`, else
holds `idx`; a holding worker submits its index (whatever `broadcastTxCommit` answers,
the loop continues); a worker that has returned, or an absent one, does nothing. -/
def step (total : Int) (p : Pool) (w : Nat) : Pool :=
  match p.workers[w]? with
  | some .claiming =>
    let sent := wrapInt32 (p.sent + 1)
    let idx := sent - 1
    if idx ≥ total then { p with sent := sent, workers := p.workers.set w .exited }
    else { p with sent := sent, workers := p.workers.set w (.holding idx) }
  | some (.holding idx) =>
    { p with workers := p.workers.set w .claiming, submitted := p.submitted ++ [idx] }
  | _ => p

/-- An interleaving is the list of the workers that act, in order. -/
def run (total : Int) (p : Pool) (sched : List Nat) : Pool := sched.foldl (step total) p

/-- The closed-loop part of `main` under the interleaving `sched`, for `*totalReq = total`
and `*concur = concur`.  `make(chan time.Duration, *totalReq)` comes first: it panics
(`none`, "makechan: size out of range") before any worker is started when the capacity is
negative or above `chanCap`, the largest capacity the Go runtime accepts for a channel of
8-byte elements. -/
def closedLoop (chanCap total concur : Int) (sched : List Nat) : Option Pool :=
  if total < 0 ∨ chanCap < total then none else some (run total (initPool concur) sched)

/-- The value of `chanCap` on 64-bit Linux: the runtime's `makechan` panics when
`8 * size > maxAlloc - hchanSize`, with `maxAlloc = 2^48` and `hchanSize = 96`, so the
largest accepted capacity is `2^45 - 12`. -/
def chanCapLinux64 : Int := 35184372088820

/-- All workers have returned (`wg.Wait()` is over). -/
def allExited (p : Pool) : Bool := p.workers.all (· == .exited)

/-- The indices claimed and not yet submitted. -/
def held (ws : List Worker) : List Int :=
  ws.filterMap (fun w => match w with | .holding i => some i | _ => none)

/-- Number of workers that have returned. -/
def exitedCount (ws : List Worker) : Nat := ws.count .exited

/-- The consecutive indices `s, s + 1, ..., s + k - 1`. -/
def indicesFrom (s : Int) (k : Nat) : List Int :=
  (List.range k).map (fun (j : Nat) => s + (j : Int))

/-- The interleaving of two workers in which worker 0 performs `a` claim-and-submit rounds
and one more claim, and then worker 1 performs one round, `b` rounds and one more claim. -/
def soloSchedule (a b : Nat) : List Nat :=
  List.replicate (2 * a) 0 ++ ([0] ++ ([1, 1] ++ (List.replicate (2 * b) 1 ++ [1])))

/-- Invariant of the closed-loop run while the counter has not wrapped: the counter is
non-negative, one worker has returned for each claim at or beyond `total`, and the
submitted and held indices are, without repetition, exactly the indices below
`min sent total`. -/
structure Inv (total : Int) (n : Nat) (p : Pool) : Prop where
  sent_nonneg : 0 ≤ p.sent
  len : p.workers.length = n
  exited : (exitedCount p.workers : Int) = max 0 (p.sent - total)
  nodup : (p.submitted ++ held p.workers).Nodup
  mem : ∀ i, i ∈ p.submitted ++ held p.workers ↔ 0 ≤ i ∧ i < min p.sent total

/-! ## `bench_tendermint.go`: the result aggregator -/

/-- Wrap-around of Go `int64` arithmetic. -/
def wrapInt64 (x : Int) : Int := (x + 2 ^ 63) % 2 ^ 64 - 2 ^ 63

/-- The running sum of the collection loop, `sum += l` on `time.Duration` (`int64`). -/
def sumLatencies (ls : List Int) : Int := ls.foldl (fun s l => wrapInt64 (s + l)) 0

/-- Go `a / b` on `int64`: truncated division; a zero divisor panics (`none`). -/
def goDiv (a b : Int) : Option Int := if b = 0 then none else some (wrapInt64 (Int.tdiv a b))

/-- The mean computed in `main`: `avg := sum / time.Duration(count)`. -/
def meanLatency (ls : List Int) : Option Int := goDiv (sumLatencies ls) ls.length

/-- Number of binary digits of `n`, computed by repeated halving; the first argument
bounds the number of halvings. -/
def bitLengthAux : Nat → Nat → Nat
  | 0, _ => 0
  | fuel + 1, n => if n = 0 then 0 else bitLengthAux fuel (n / 2) + 1

/-- Number of binary digits of `n` (`0` for `n = 0`). -/
def bitLength (n : Nat) : Nat := bitLengthAux n n

/-- IEEE-754 binary64 rounding (round to nearest, ties to even) of a natural number to 53
significant bits.  With `x = n / 2^k` for a fixed `k` this is the rounding of the exact
result `x` of a `float64` operation whose value lies in the normal range. -/
def roundFloat53 (n : Nat) : Nat :=
  if bitLength n ≤ 53 then n
  else
    let s := bitLength n - 53
    let q := n / 2 ^ s
    let r := n % 2 ^ s
    let h := 2 ^ (s - 1)
    if r < h ∨ (r = h ∧ q % 2 = 0) then q * 2 ^ s else (q + 1) * 2 ^ s

/-- The `float64` constant `0.95` is `8556839292003942 / 2^53` (`0x1.e666666666666p-1`). -/
def const095 : Nat := 8556839292003942

/-- The `float64` constant `0.99` is `8917127262193582 / 2^53` (`0x1.fae147ae147aep-1`). -/
def const099 : Nat := 8917127262193582

/-- Go `int(float64(count) * c)` for the `float64` constant `c / 2^53`: `count` is
converted (rounded) to `float64`, the product is rounded to `float64`, and the conversion
to `int` truncates. -/
def percentileIndex (count c : Nat) : Nat := roundFloat53 (roundFloat53 count * c) / 2 ^ 53

/-- Go `sort.Slice(latencies, func(i, j) bool { return latencies[i] < latencies[j] })`:
the ascending rearrangement of the samples (unique for integers, whichever algorithm
computes it). -/
def sortSlice (l : List Int) : List Int := l.insertionSort (· ≤ ·)

/-- The statistics printed by `main`. -/
structure Stats where
  count : Nat
  avg : Int
  p50 : Int
  p95 : Int
  p99 : Int
  deriving DecidableEq, Repr

/-- What `main` reports after the collection loop. -/
inductive Report where
  | noSuccess : Report
  | stats : Stats → Report
  deriving DecidableEq, Repr

/-- The part of `main` after the collection loop (lines 146-155), for the collected
`latencies`; `count` is their number.  `none` is a run-time panic (index out of range or
integer division by zero).  The throughput estimate, a `float64` division that is only
printed, is not part of the report. -/
def aggregate (latencies : List Int) : Option Report :=
  let count := latencies.length
  if count = 0 then some .noSuccess
  else do
    let sorted := sortSlice latencies
    let p50 ← sorted[count / 2]?
    let p95 ← sorted[percentileIndex count const095]?
    let p99 ← sorted[percentileIndex count const099]?
    let avg ← meanLatency latencies
    pure (.stats ⟨count, avg, p50, p95, p99⟩)

/-- Largest sample (`0` for no sample). -/
def maxSample : List Int → Int
  | [] => 0
  | a :: t => t.foldl max a

/-- Smallest sample (`0` for no sample). -/
def minSample : List Int → Int
  | [] => 0
  | a :: t => t.foldl min a

/-! ## `kvbench/main.go`: ticker period -/

/-- Go `time.Second`, in nanoseconds. -/
def timeSecond : Int := 1000000000

/-- Go `time.NewTicker(d)`: panics (here `none`) for a non-positive period. -/
def newTicker (d : Int) : Option Int := if d ≤ 0 then none else some d

/-- Period of the ticker built in kvbench `main`:
`time.NewTicker(time.Second / time.Duration(*tps))`.  Integer division truncates; a zero
divisor panics (`none`). -/
def tickPeriod (tps : Int) : Option Int :=
  if tps = 0 then none else newTicker (Int.tdiv timeSecond tps)

/-! ## `kvbench/main.go`: counter encoding and the verify loop -/

/-- Go conversion `byte(x)` of an unsigned value: the low eight bits. -/
def byteOf (x : Nat) : Byte := ⟨x % 256, Nat.mod_lt _ (by decide)⟩

/-- Go `binary.LittleEndian.PutUint64(buf, v)` on a fresh 8-byte buffer:
`buf[k] = byte(v >> (8*k))`. -/
def putUint64 (v : Nat) : List Byte :=
  [byteOf v, byteOf (v >>> 8), byteOf (v >>> 16), byteOf (v >>> 24),
   byteOf (v >>> 32), byteOf (v >>> 40), byteOf (v >>> 48), byteOf (v >>> 56)]

/-- Go `binary.LittleEndian.Uint64(b)`: panics (`none`) when `b` has fewer than eight
bytes, otherwise combines `b[0..7]`, least significant byte first.  The bytes occupy
disjoint bit ranges, so the bitwise-or of the shifted bytes is their sum. -/
def uint64LE : List Byte → Option Nat
  | b0 :: b1 :: b2 :: b3 :: b4 :: b5 :: b6 :: b7 :: _ =>
    some (b0.val + b1.val * 2 ^ 8 + b2.val * 2 ^ 16 + b3.val * 2 ^ 24 +
      b4.val * 2 ^ 32 + b5.val * 2 ^ 40 + b6.val * 2 ^ 48 + b7.val * 2 ^ 56)
  | _ => none

/-- The verify loop of kvbench `main`:
`for i := 0; i+8 <= len(val); i += 8 { total += Uint64(val[i : i+8]) }` with `total` a
`uint64`.  The first argument bounds the number of iterations; `none` is a panic (or an
exhausted bound). -/
def verifyLoop (val : List Byte) : Nat → Nat → Nat → Option Nat
  | 0, _, _ => none
  | fuel + 1, i, total =>
    if i + 8 ≤ val.length then
      match uint64LE ((val.drop i).take 8) with
      | none => none
      | some x => verifyLoop val fuel (i + 8) ((total + x) % 2 ^ 64)
    else some total

/-- The committed total printed by kvbench `main` for the bytes `val` that `query`
returned. -/
def committedTotal (val : List Byte) : Option Nat :=
  verifyLoop val (val.length / 8 + 1) 0 0

/-! ## `kvbench/main.go`: `query` and the library routines it calls -/

/-- Go `bytes.Count(s, sep)` for a non-empty `sep`: number of non-overlapping instances,
found left to right.  The first argument bounds the number of instances looked for. -/
def bytesCount : Nat → List Byte → List Byte → Nat
  | 0, _, _ => 0
  | fuel + 1, s, sep =>
    match bytesIndex s sep with
    | none => 0
    | some i => 1 + bytesCount fuel (s.drop (i + sep.length)) sep

/-- The loop of Go `bytes.genSplit`: at most `k` more cuts at instances of `sep`, then the
remainder as the last piece. -/
def genSplitLoop : Nat → List Byte → List Byte → List (List Byte)
  | 0, s, _ => [s]
  | k + 1, s, sep =>
    match bytesIndex s sep with
    | none => [s]
    | some m => s.take m :: genSplitLoop k (s.drop (m + sep.length)) sep

/-- Go `bytes.genSplit(s, sep, 0, n)`, which is `bytes.Split(s, sep)` for `n = -1` and
`bytes.SplitN(s, sep, n)` otherwise.  Only the branch for a non-empty separator is
embedded (both calls in `query` pass a non-empty literal); for an empty separator Go
splits after each UTF-8 sequence, which is rendered here as no split. -/
def genSplit (s sep : List Byte) (n : Int) : List (List Byte) :=
  if n = 0 then []
  else if sep.isEmpty then [s]
  else
    let n1 : Nat := if n < 0 then bytesCount s.length s sep + 1 else n.toNat
    let n2 : Nat := if n1 > s.length + 1 then s.length + 1 else n1
    genSplitLoop (n2 - 1) s sep

/-- The decode map of Go `base64.StdEncoding`: the 6-bit value of an alphabet byte
(`A-Z`, `a-z`, `0-9`, `+`, `/`), `none` for any other byte (Go stores `0xff`). -/
def decodeMap (b : Byte) : Option Nat :=
  let c := b.val
  if 65 ≤ c ∧ c ≤ 90 then some (c - 65)
  else if 97 ≤ c ∧ c ≤ 122 then some (c - 97 + 26)
  else if 48 ≤ c ∧ c ≤ 57 then some (c - 48 + 52)
  else if c = 43 then some 62
  else if c = 47 then some 63
  else none

/-- The bytes `\n` and `\r`, which the Go decoder skips. -/
def isNewline (b : Byte) : Bool := b = (10 : Byte) || b = (13 : Byte)

/-- The loop `for si < len(src) && (src[si] == '\n' || src[si] == '\r') { si++ }`. -/
def skipNewlines : List Byte → List Byte
  | [] => []
  | b :: t => if isNewline b then skipNewlines t else b :: t

/-- End of Go `decodeQuantum`: the 6-bit values in `dbuf` (missing ones are zero) are
packed into 24 bits and the first `dlen - 1` of the three bytes are written. -/
def quantumBytes (dbuf : List Nat) (dlen : Nat) : List Byte :=
  let val := dbuf.getD 0 0 * 2 ^ 18 + dbuf.getD 1 0 * 2 ^ 12 + dbuf.getD 2 0 * 2 ^ 6 + dbuf.getD 3 0
  [byteOf (val >>> 16), byteOf (val >>> 8), byteOf val].take (dlen - 1)

/-- Go `(*Encoding).Decode` for `StdEncoding` (padding `=`, not strict), as one pass over
the input: `j` counts the 6-bit values of the current quantum collected in `dbuf`, `acc`
is `dst[:n]`.  The result is the bytes written and whether a `CorruptInputError` is
returned (its offset is not kept).  On an error inside a quantum the bytes of the
quanta decoded before it stay in the result; trailing bytes after a padded quantum are
reported after that quantum is written. -/
def decodeFrom : List Byte → Nat → List Nat → List Byte → List Byte × Bool
  | [], j, _, acc => (acc, decide (j ≠ 0))
  | c :: rest, j, dbuf, acc =>
    match decodeMap c with
    | some out =>
      if j = 3 then decodeFrom rest 0 [] (acc ++ quantumBytes (dbuf ++ [out]) 4)
      else decodeFrom rest (j + 1) (dbuf ++ [out]) acc
    | none =>
      if isNewline c then decodeFrom rest j dbuf acc
      else if c ≠ (61 : Byte) then (acc, true)
      else if j < 2 then (acc, true)
      else if j = 2 then
        match skipNewlines rest with
        | [] => (acc, true)
        | c2 :: rest2 =>
          if c2 ≠ (61 : Byte) then (acc, true)
          else (acc ++ quantumBytes dbuf 2, !(skipNewlines rest2).isEmpty)
      else (acc ++ quantumBytes dbuf 3, !(skipNewlines rest).isEmpty)

/-- Go `base64.StdEncoding.DecodeString(s)`, which returns `dbuf[:n], err`: the bytes
decoded so far together with the error flag. -/
def decodeString (s : List Byte) : List Byte × Bool := decodeFrom s 0 [] []

/-- The alphabet of Go `base64.StdEncoding`: the byte that encodes the 6-bit value `v`. -/
def encodeChar (v : Nat) : Byte :=
  if v < 26 then byteOf (65 + v)
  else if v < 52 then byteOf (97 + (v - 26))
  else if v < 62 then byteOf (48 + (v - 52))
  else if v = 62 then byteOf 43
  else byteOf 47

/-- Go `base64.StdEncoding.EncodeToString`: three bytes become four alphabet bytes; a
final group of one or two bytes is padded with `=`.  It serves to state what the decoder
computes. -/
def encodeToString : List Byte → List Byte
  | b0 :: b1 :: b2 :: rest =>
    let val := b0.val * 2 ^ 16 + b1.val * 2 ^ 8 + b2.val
    encodeChar (val / 2 ^ 18 % 64) :: encodeChar (val / 2 ^ 12 % 64) ::
      encodeChar (val / 2 ^ 6 % 64) :: encodeChar (val % 64) :: encodeToString rest
  | [b0, b1] =>
    let val := b0.val * 2 ^ 16 + b1.val * 2 ^ 8
    [encodeChar (val / 2 ^ 18 % 64), encodeChar (val / 2 ^ 12 % 64),
      encodeChar (val / 2 ^ 6 % 64), 61]
  | [b0] =>
    let val := b0.val * 2 ^ 16
    [encodeChar (val / 2 ^ 18 % 64), encodeChar (val / 2 ^ 12 % 64), 61, 61]
  | [] => []

/-- The literal `"value":"` (nine bytes). -/
def valueMarker : List Byte := [34, 118, 97, 108, 117, 101, 34, 58, 34]

/-- The literal `"` (one double quote). -/
def quoteSep : List Byte := [34]

/-- A non-nil error returned by `query`. -/
inductive QueryError where
  | transport : QueryError
  | noValue : QueryError
  | corruptInput : QueryError
  deriving DecidableEq, Repr

/-- Go `query`, as a function of what `http.Get` produced (the status code is not
inspected; the body is what `io.Copy` put in the buffer).  The result is the pair
`([]byte, error)`; `none` is a run-time panic (index out of range). -/
def query : HttpResult → Option (List Byte × Option QueryError)
  | .transportError => some ([], some .transport)
  | .response _ body =>
    let raw := genSplit body valueMarker (-1)
    if raw.length < 2 then some ([], some .noValue)
    else
      match raw[1]? with
      | none => none
      | some r1 =>
        match genSplit r1 quoteSep 2 with
        | [] => none
        | valb64 :: _ =>
          let d := decodeString valb64
          some (d.1, if d.2 then some .corruptInput else none)

/-- The final check of kvbench `main`: `val, _ := query("acc2")` followed by the verify
loop over `val`; the error of `query` is discarded. -/
def reportedTotal (resp : HttpResult) : Option Nat :=
  match query resp with
  | none => none
  | some (val, _) => committedTotal val

/-- The bytes after a marker up to, and not including, the next double quote (all of
them when there is none). -/
def tokenOf (post : List Byte) : List Byte := post.takeWhile (· ≠ (34 : Byte))

/-- A response body cut off inside the value: `{"value":"AQAAAAAAAAACAAAAAAAAAA`, the
start of `{"value":"AQAAAAAAAAACAAAAAAAAAA=="}` (the counters 1 and 2). -/
def truncatedBody : List Byte :=
  [123, 34, 118, 97, 108, 117, 101, 34, 58, 34, 65, 81, 65, 65, 65, 65, 65, 65, 65, 65, 65,
   67, 65, 65, 65, 65, 65, 65, 65, 65, 65, 65]

/-! ## Lemmas on `bytesIndex` -/

theorem bytesIndex_eq_none_iff (sep : List Byte) :
    ∀ s : List Byte, bytesIndex s sep = none ↔ ¬ sep <:+: s := by
  intro s
  induction s with
  | nil =>
    unfold bytesIndex
    by_cases h : sep.isPrefixOf [] = true
    · have : sep = [] := by simpa using h
      subst this; simp
    · have hne : sep ≠ [] := by
        intro h0; subst h0; simp at h
      simp [h, hne]
  | cons b t ih =>
    unfold bytesIndex
    by_cases h : sep.isPrefixOf (b :: t) = true
    · have hp : sep <+: b :: t := List.isPrefixOf_iff_prefix.mp h
      simp [h, hp.isInfix]
    · have hp : ¬ sep <+: b :: t := fun hp => h (List.isPrefixOf_iff_prefix.mpr hp)
      simp only [h, Bool.false_eq_true, if_false, Option.map_eq_none', ih]
      rw [List.infix_cons_iff]
      tauto

theorem bytesIndex_some (sep : List Byte) :
    ∀ (s : List Byte) (m : Nat), bytesIndex s sep = some m →
      s = s.take m ++ sep ++ s.drop (m + sep.length) ∧
      ∀ pre post, s = pre ++ sep ++ post → m ≤ pre.length := by
  intro s
  induction s with
  | nil =>
    intro m hm
    unfold bytesIndex at hm
    by_cases h : sep.isPrefixOf [] = true
    · have : sep = [] := by simpa using h
      subst this
      simp at hm; subst hm; simp
    · simp [h] at hm
  | cons b t ih =>
    intro m hm
    unfold bytesIndex at hm
    by_cases h : sep.isPrefixOf (b :: t) = true
    · simp only [h, if_true, Option.some.injEq] at hm
      subst hm
      obtain ⟨r, hr⟩ := List.isPrefixOf_iff_prefix.mp h
      refine ⟨?_, fun _ _ _ => Nat.zero_le _⟩
      have : (b :: t).drop (0 + sep.length) = r := by
        rw [← hr]; simp
      rw [this]; simpa using hr.symm
    · have hp : ¬ sep <+: b :: t := fun hp => h (List.isPrefixOf_iff_prefix.mpr hp)
      simp only [h, Bool.false_eq_true, if_false, Option.map_eq_some'] at hm
      obtain ⟨k, hk, rfl⟩ := hm
      obtain ⟨h1, h2⟩ := ih k hk
      refine ⟨?_, ?_⟩
      · have : k + 1 + sep.length = (k + sep.length) + 1 := by omega
        rw [this]
        simp only [List.take_succ_cons, List.drop_succ_cons, List.cons_append]
        rw [← h1]
      · intro pre post hpp
        cases pre with
        | nil => exact absurd ⟨post, by simpa using hpp.symm⟩ hp
        | cons c pre' =>
          simp only [List.cons_append, List.cons.injEq] at hpp
          have := h2 pre' post hpp.2
          simp only [List.length_cons]
          omega

theorem bytesContains_iff (b sep : List Byte) :
    bytesContains b sep = true ↔ sep <:+: b := by
  unfold bytesContains
  rw [Option.isSome_iff_ne_none, Ne, bytesIndex_eq_none_iff, not_not]

/-! ## Claims on `broadcastTxCommit` -/

/-- C1: for a response received without transport error, with status `s` and body `b`,
`broadcastTxCommit` returns the nil error exactly when `s = 200`, `b` is non-empty and `b`
contains the byte string `"code":0`; in every other case it returns a non-nil error. -/
theorem broadcastTxCommit_nil_iff (s : Int) (b : List Byte) :
    (broadcastTxCommit (.response s b) = none ↔
      s = 200 ∧ b ≠ [] ∧ codeZeroMarker <:+: b) ∧
    ((∃ e, broadcastTxCommit (.response s b) = some e) ↔
      ¬ (s = 200 ∧ b ≠ [] ∧ codeZeroMarker <:+: b)) := by
  have key : broadcastTxCommit (.response s b) = none ↔
      s = 200 ∧ b ≠ [] ∧ codeZeroMarker <:+: b := by
    unfold broadcastTxCommit
    by_cases h1 : b.length = 0 ∨ s ≠ 200
    · simp only [h1, if_true]
      constructor
      · intro h; cases h
      · rintro ⟨hs, hb, -⟩
        rcases h1 with h1 | h1
        · exact absurd (List.length_eq_zero.mp h1) hb
        · exact absurd hs h1
    · simp only [h1, if_false]
      push_neg at h1
      have hb : b ≠ [] := fun h => h1.1 (by simp [h])
      by_cases h2 : bytesContains b codeZeroMarker = true
      · simp [h2, h1.2, hb, (bytesContains_iff _ _).mp h2]
      · have h3 : ¬ codeZeroMarker <:+: b := fun h => h2 ((bytesContains_iff _ _).mpr h)
        simp [h2, h3]
  refine ⟨key, ?_⟩
  rw [← key]
  cases broadcastTxCommit (.response s b) <;> simp

/-! ## Claims on the ticker period -/

/-- C10 (as stated, refuted): at the configured rate `tps = 3` the period is
`P = 333333333` ns and `P * tps = 999999999` is below `10^9`. -/
theorem tickPeriod_times_rate_lt :
    tickPeriod 3 = some 333333333 ∧ ¬ ((333333333 : Int) * 3 ≥ 1000000000) := by
  decide

/-- C10 (amended): for `1 ≤ tps ≤ 10^9` the ticker is created with a period
`P = 10^9 / tps ≥ 1` ns that is rounded down: `P * tps ≤ 10^9 < (P + 1) * tps`, and
`P * tps` reaches one second exactly when `tps` divides `10^9`. -/
theorem tickPeriod_spec (tps : Int) (h1 : 1 ≤ tps) (h2 : tps ≤ 1000000000) :
    ∃ P, tickPeriod tps = some P ∧ 1 ≤ P ∧
      P * tps ≤ 1000000000 ∧ 1000000000 < (P + 1) * tps ∧
      (P * tps ≥ 1000000000 ↔ tps ∣ 1000000000) := by
  have hpos : (0 : Int) < tps := by omega
  have hne : tps ≠ 0 := by omega
  have hdiv : Int.tdiv 1000000000 tps = 1000000000 / tps :=
    Int.tdiv_eq_ediv (by decide) (by omega)
  have hP1 : 1 ≤ (1000000000 : Int) / tps := by
    have := Int.le_ediv_of_mul_le hpos (show (1 : Int) * tps ≤ 1000000000 by omega)
    exact this
  have hmul : (1000000000 : Int) / tps * tps ≤ 1000000000 := Int.ediv_mul_le _ hne
  have hlt : (1000000000 : Int) < (1000000000 / tps + 1) * tps :=
    Int.lt_ediv_add_one_mul_self _ hpos
  refine ⟨1000000000 / tps, ?_, hP1, hmul, hlt, ?_⟩
  · unfold tickPeriod newTicker timeSecond
    rw [hdiv]
    simp only [hne, if_false]
    rw [if_neg (by omega)]
  · constructor
    · intro hge
      have heq : (1000000000 : Int) / tps * tps = 1000000000 := le_antisymm hmul hge
      exact Dvd.intro_left _ heq
    · intro hd
      have := Int.ediv_mul_cancel hd
      omega

/-- Witness for C10 at the default rate `tps = 500`. -/
theorem tickPeriod_spec_witness :
    ((1 : Int) ≤ 500 ∧ (500 : Int) ≤ 1000000000) ∧
    ∃ P, tickPeriod 500 = some P ∧ 1 ≤ P ∧
      P * 500 ≤ 1000000000 ∧ 1000000000 < (P + 1) * 500 ∧
      (P * 500 ≥ 1000000000 ↔ (500 : Int) ∣ 1000000000) :=
  ⟨by decide, tickPeriod_spec 500 (by decide) (by decide)⟩

/-! ## Claims on `makeTx` -/

theorem uint64LE_putUint64_append (v : Nat) (rest : List Byte) :
    uint64LE ((putUint64 v ++ rest).take 8) = some (v % 2 ^ 64) := by
  simp only [putUint64, byteOf, uint64LE, List.cons_append, List.take_succ_cons,
    Nat.shiftRight_eq_div_pow, Option.some.injEq]
  omega

theorem verifyLoop_shift (fuel : Nat) :
    ∀ (pre rest : List Byte) (total : Nat),
      verifyLoop (pre ++ rest) fuel pre.length total = verifyLoop rest fuel 0 total := by
  induction fuel with
  | zero => intro pre rest total; rfl
  | succ f ih =>
    intro pre rest total
    unfold verifyLoop
    have hd : (pre ++ rest).drop pre.length = rest := List.drop_left _ _
    by_cases h : 8 ≤ rest.length
    · have h1 : pre.length + 8 ≤ (pre ++ rest).length := by
        simp only [List.length_append]; omega
      have h2 : 0 + 8 ≤ rest.length := by omega
      simp only [h1, h2, if_true, hd, List.drop_zero]
      cases hx : uint64LE (rest.take 8) with
      | none => rfl
      | some x =>
        simp only
        have e1 := ih (pre ++ rest.take 8) (rest.drop 8) ((total + x) % 2 ^ 64)
        have e2 := ih (rest.take 8) (rest.drop 8) ((total + x) % 2 ^ 64)
        have hl : (rest.take 8).length = 8 := by simp [List.length_take]; omega
        simp only [List.append_assoc, List.take_append_drop, List.length_append, hl] at e1 e2
        rw [e1, ← e2]
    · have h1 : ¬ pre.length + 8 ≤ (pre ++ rest).length := by
        simp only [List.length_append]; omega
      have h2 : ¬ 0 + 8 ≤ rest.length := by omega
      simp only [h1, h2, if_false]

theorem verifyLoop_short (val : List Byte) (h : val.length < 8) (fuel total : Nat) :
    verifyLoop val (fuel + 1) 0 total = some total := by
  unfold verifyLoop
  have : ¬ 0 + 8 ≤ val.length := by omega
  simp only [this, if_false]

theorem verifyLoop_putUint64 (fuel v total : Nat) (rest : List Byte) :
    verifyLoop (putUint64 v ++ rest) (fuel + 1) 0 total =
      verifyLoop rest fuel 0 ((total + v % 2 ^ 64) % 2 ^ 64) := by
  have hl : (putUint64 v).length = 8 := rfl
  conv_lhs => unfold verifyLoop
  have h1 : 0 + 8 ≤ (putUint64 v ++ rest).length := by
    simp only [List.length_append, hl]; omega
  simp only [h1, if_true, List.drop_zero, uint64LE_putUint64_append]
  have := verifyLoop_shift fuel (putUint64 v) rest ((total + v % 2 ^ 64) % 2 ^ 64)
  rw [hl] at this
  exact this

theorem verifyLoop_encoded (vs : List Nat) :
    ∀ (fuel total : Nat), vs.length < fuel → total < 2 ^ 64 →
      verifyLoop (vs.flatMap putUint64) fuel 0 total = some ((total + vs.sum) % 2 ^ 64) := by
  induction vs with
  | nil =>
    intro fuel total hf ht
    obtain ⟨f, rfl⟩ : ∃ f, fuel = f + 1 := ⟨fuel - 1, by simp at hf; omega⟩
    rw [List.flatMap_nil, verifyLoop_short _ (by simp)]
    simp only [List.sum_nil, Nat.add_zero, Nat.mod_eq_of_lt ht]
  | cons v vs ih =>
    intro fuel total hf ht
    obtain ⟨f, rfl⟩ : ∃ f, fuel = f + 1 := ⟨fuel - 1, by simp at hf; omega⟩
    rw [List.flatMap_cons, verifyLoop_putUint64,
      ih f _ (by simp at hf; omega) (Nat.mod_lt _ (by decide))]
    simp only [List.sum_cons, Option.some.injEq]
    omega

theorem length_flatMap_putUint64 (vs : List Nat) :
    (vs.flatMap putUint64).length = 8 * vs.length := by
  induction vs with
  | nil => rfl
  | cons v vs ih =>
    rw [List.flatMap_cons, List.length_append, ih]
    simp [putUint64]; omega

/-- C6: for every list of `uint64` counter values, the verify loop run on the
concatenation of their 8-byte little-endian encodings (as written by `PutUint64` in the
tick loop) yields their sum modulo `2^64`; for one counter value the decoded integer is
the original one. -/
theorem committedTotal_encoded (vs : List Nat) (hvs : ∀ v ∈ vs, v < 2 ^ 64) :
    committedTotal (vs.flatMap putUint64) = some (vs.sum % 2 ^ 64) ∧
    (∀ v ∈ vs, uint64LE (putUint64 v) = some v ∧ committedTotal (putUint64 v) = some v) := by
  refine ⟨?_, fun v hv => ?_⟩
  · unfold committedTotal
    rw [verifyLoop_encoded vs _ 0 (by rw [length_flatMap_putUint64]; omega) (by decide)]
    simp
  · have hlt := hvs v hv
    have h1 := uint64LE_putUint64_append v []
    have hl : (putUint64 v).length = 8 := rfl
    rw [List.append_nil, List.take_of_length_le (by omega), Nat.mod_eq_of_lt hlt] at h1
    refine ⟨h1, ?_⟩
    have := verifyLoop_encoded [v] 2 0 (by simp) (by decide)
    simp only [List.flatMap_cons, List.flatMap_nil, List.append_nil, List.sum_cons,
      List.sum_nil, Nat.add_zero, Nat.zero_add, Nat.mod_eq_of_lt hlt] at this
    unfold committedTotal
    rw [hl]
    exact this

/-- Witness for C6 on the counters `1, 2, 3` of the first three ticks. -/
theorem committedTotal_encoded_witness :
    (∀ v ∈ ([1, 2, 3] : List Nat), v < 2 ^ 64) ∧
    committedTotal ([1, 2, 3].flatMap putUint64) = some (([1, 2, 3] : List Nat).sum % 2 ^ 64) ∧
    (∀ v ∈ ([1, 2, 3] : List Nat),
      uint64LE (putUint64 v) = some v ∧ committedTotal (putUint64 v) = some v) :=
  ⟨by decide, committedTotal_encoded [1, 2, 3] (by decide)⟩

/-! ## Claims on the result aggregator -/

theorem bitLengthAux_spec (fuel : Nat) :
    ∀ n : Nat, n ≤ fuel → n ≠ 0 →
      2 ^ (bitLengthAux fuel n - 1) ≤ n ∧ n < 2 ^ bitLengthAux fuel n ∧
        1 ≤ bitLengthAux fuel n := by
  induction fuel with
  | zero => intro n h h0; omega
  | succ f ih =>
    intro n hn h0
    unfold bitLengthAux
    simp only [h0, if_false]
    by_cases h1 : n / 2 = 0
    · have hn1 : n = 1 := by omega
      subst hn1
      cases f <;> simp [bitLengthAux]
    · obtain ⟨a, b, c⟩ := ih (n / 2) (by omega) h1
      refine ⟨?_, ?_, by omega⟩
      · have e : bitLengthAux f (n / 2) + 1 - 1 = (bitLengthAux f (n / 2) - 1) + 1 := by omega
        rw [e, pow_succ]; omega
      · rw [pow_succ]; omega

theorem bitLength_spec (n : Nat) (h0 : n ≠ 0) :
    2 ^ (bitLength n - 1) ≤ n ∧ n < 2 ^ bitLength n ∧ 1 ≤ bitLength n :=
  bitLengthAux_spec n n (le_refl n) h0

theorem bitLength_zero : bitLength 0 = 0 := rfl

theorem roundFloat53_small (n : Nat) (h : n < 2 ^ 53) : roundFloat53 n = n := by
  unfold roundFloat53
  have : bitLength n ≤ 53 := by
    by_cases h0 : n = 0
    · subst h0; simp [bitLength_zero]
    · obtain ⟨a, _, c⟩ := bitLength_spec n h0
      by_contra hc
      have : 2 ^ 53 ≤ 2 ^ (bitLength n - 1) := Nat.pow_le_pow_right (by decide) (by omega)
      omega
  simp [this]

theorem roundFloat53_large (n : Nat) (h : 2 ^ 53 ≤ n) :
    ∃ s r : Nat, 1 ≤ s ∧ roundFloat53 n = r * 2 ^ s ∧ 2 ^ s * 2 ^ 52 ≤ n ∧ n < 2 ^ s * 2 ^ 53 ∧
      2 * n ≤ 2 * (r * 2 ^ s) + 2 ^ s ∧ 2 * (r * 2 ^ s) ≤ 2 * n + 2 ^ s := by
  have h0 : n ≠ 0 := by
    have : 0 < 2 ^ 53 := by decide
    omega
  obtain ⟨a, b, c⟩ := bitLength_spec n h0
  have hbl : ¬ bitLength n ≤ 53 := by
    intro hc
    have : 2 ^ bitLength n ≤ 2 ^ 53 := Nat.pow_le_pow_right (by decide) hc
    omega
  have hs : 1 ≤ bitLength n - 53 := by omega
  have e1 : 2 ^ (bitLength n - 1) = 2 ^ (bitLength n - 53) * 2 ^ 52 := by
    rw [← pow_add]; congr 1; omega
  have e2 : 2 ^ bitLength n = 2 ^ (bitLength n - 53) * 2 ^ 53 := by
    rw [← pow_add]; congr 1; omega
  have e3 : 2 ^ (bitLength n - 53) = 2 * 2 ^ (bitLength n - 53 - 1) := by
    rw [← pow_succ']; congr 1; omega
  have hdm := Nat.div_add_mod n (2 ^ (bitLength n - 53))
  have hpos : 0 < 2 ^ (bitLength n - 53) := Nat.pow_pos (by decide)
  have hmod := Nat.mod_lt n hpos
  rw [Nat.mul_comm] at hdm
  unfold roundFloat53
  simp only [hbl, if_false]
  generalize hT : 2 ^ (bitLength n - 53) = T at *
  generalize hH : 2 ^ (bitLength n - 53 - 1) = H at *
  generalize hq : n / T = q at *
  generalize hr : n % T = r at *
  by_cases hc : r < H ∨ (r = H ∧ q % 2 = 0)
  · simp only [hc, if_true]
    refine ⟨bitLength n - 53, q, hs, by rw [hT], by rw [hT]; omega, by rw [hT]; omega, ?_, ?_⟩
    · rw [hT]; generalize q * T = X at *; omega
    · rw [hT]; generalize q * T = X at *; omega
  · simp only [hc, if_false]
    refine ⟨bitLength n - 53, q + 1, hs, by rw [hT], by rw [hT]; omega, by rw [hT]; omega, ?_, ?_⟩
    · rw [hT, Nat.add_mul]; generalize q * T = X at *; omega
    · rw [hT, Nat.add_mul]; generalize q * T = X at *; omega

theorem roundFloat53_bounds (n : Nat) :
    2 ^ 53 * roundFloat53 n ≤ (2 ^ 53 + 1) * n ∧ (2 ^ 53 - 1) * n ≤ 2 ^ 53 * roundFloat53 n := by
  by_cases h : n < 2 ^ 53
  · rw [roundFloat53_small n h]
    constructor
    · exact Nat.mul_le_mul_right _ (by decide)
    · exact Nat.mul_le_mul_right _ (by decide)
  · obtain ⟨s, r, _, hr, h1, h2, h3, h4⟩ := roundFloat53_large n (by omega)
    rw [hr]
    generalize r * 2 ^ s = R at *
    generalize 2 ^ s = T at *
    constructor <;> omega

theorem percentileIndex_lt (count c : Nat) (hc : c ≤ const099) (h : 1 ≤ count) :
    percentileIndex count c < count := by
  unfold percentileIndex
  rw [Nat.div_lt_iff_lt_mul (by decide)]
  obtain ⟨h1, _⟩ := roundFloat53_bounds count
  obtain ⟨h2, _⟩ := roundFloat53_bounds (roundFloat53 count * c)
  generalize roundFloat53 (roundFloat53 count * c) = R at *
  generalize hA : roundFloat53 count = A at *
  have h3 : A * c ≤ A * const099 := Nat.mul_le_mul_left _ hc
  generalize A * c = N at *
  unfold const099 at h3
  omega

theorem mul_add_le_of_lt_of_dvd (r T k U : Nat) (h : r * T < k * (U * T)) :
    r * T + T ≤ k * (U * T) := by
  have hT : 0 < T := by
    rcases Nat.eq_zero_or_pos T with h0 | h0
    · subst h0; simp at h
    · exact h0
  have h1 : r < k * U := by
    rw [← Nat.mul_assoc] at h
    exact Nat.lt_of_mul_lt_mul_right h
  have h2 : (r + 1) * T ≤ (k * U) * T := Nat.mul_le_mul_right _ h1
  rw [Nat.add_mul, Nat.one_mul, Nat.mul_assoc] at h2
  exact h2

theorem pow_split_53 (s : Nat) (h : s ≤ 53) : 2 ^ (53 - s) * 2 ^ s = 2 ^ 53 := by
  rw [← pow_add]; congr 1; omega

theorem percentileIndex_095 (count : Nat) (h : count < 2 ^ 46) :
    percentileIndex count const095 = 95 * count / 100 := by
  unfold percentileIndex
  rw [roundFloat53_small count (by omega)]
  by_cases hN : count * const095 < 2 ^ 53
  · rw [roundFloat53_small _ hN]
    unfold const095 at hN
    have : count ≤ 1 := by omega
    interval_cases count <;> decide
  · obtain ⟨s, r, hs, hr, h1, h2, h3, h4⟩ := roundFloat53_large _ (Nat.le_of_not_lt hN)
    have hs53 : s ≤ 53 := by
      by_contra hc
      have : 2 ^ 54 ≤ 2 ^ s := Nat.pow_le_pow_right (by decide) (by omega)
      unfold const095 at h1
      omega
    have hP := pow_split_53 s hs53
    rw [hr]
    apply le_antisymm
    · have : r * 2 ^ s < (95 * count / 100 + 1) * 2 ^ 53 := by
        by_contra hc
        generalize r * 2 ^ s = R at *
        generalize 2 ^ s = T at *
        unfold const095 at *
        omega
      exact Nat.le_of_lt_succ ((Nat.div_lt_iff_lt_mul (by decide)).mpr this)
    · rw [Nat.le_div_iff_mul_le (by decide)]
      by_contra hc
      have hlt : r * 2 ^ s < (95 * count / 100) * (2 ^ (53 - s) * 2 ^ s) := by
        rw [hP]; omega
      have := mul_add_le_of_lt_of_dvd _ _ _ _ hlt
      rw [hP] at this
      generalize r * 2 ^ s = R at *
      generalize 2 ^ s = T at *
      unfold const095 at *
      omega

theorem percentileIndex_099 (count : Nat) (h : count < 2 ^ 46) :
    percentileIndex count const099 = 99 * count / 100 := by
  unfold percentileIndex
  rw [roundFloat53_small count (by omega)]
  by_cases hN : count * const099 < 2 ^ 53
  · rw [roundFloat53_small _ hN]
    unfold const099 at hN
    have : count ≤ 1 := by omega
    interval_cases count <;> decide
  · obtain ⟨s, r, hs, hr, h1, h2, h3, h4⟩ := roundFloat53_large _ (Nat.le_of_not_lt hN)
    have hs53 : s ≤ 53 := by
      by_contra hc
      have : 2 ^ 54 ≤ 2 ^ s := Nat.pow_le_pow_right (by decide) (by omega)
      unfold const099 at h1
      omega
    have hP := pow_split_53 s hs53
    rw [hr]
    apply le_antisymm
    · have : r * 2 ^ s < (99 * count / 100 + 1) * 2 ^ 53 := by
        by_contra hc
        generalize r * 2 ^ s = R at *
        generalize 2 ^ s = T at *
        unfold const099 at *
        omega
      exact Nat.le_of_lt_succ ((Nat.div_lt_iff_lt_mul (by decide)).mpr this)
    · rw [Nat.le_div_iff_mul_le (by decide)]
      by_contra hc
      have hlt : r * 2 ^ s < (99 * count / 100) * (2 ^ (53 - s) * 2 ^ s) := by
        rw [hP]; omega
      have := mul_add_le_of_lt_of_dvd _ _ _ _ hlt
      rw [hP] at this
      generalize r * 2 ^ s = R at *
      generalize 2 ^ s = T at *
      unfold const099 at *
      omega

theorem percentileIndex_half_le (count : Nat) :
    count / 2 ≤ percentileIndex count const095 := by
  unfold percentileIndex
  rw [Nat.le_div_iff_mul_le (by decide)]
  obtain ⟨_, h1⟩ := roundFloat53_bounds count
  obtain ⟨_, h2⟩ := roundFloat53_bounds (roundFloat53 count * const095)
  generalize roundFloat53 (roundFloat53 count * const095) = R at *
  generalize hA : roundFloat53 count = A at *
  unfold const095 at h2
  omega

theorem percentileIndex_095_le_099 (count : Nat) :
    percentileIndex count const095 ≤ percentileIndex count const099 := by
  unfold percentileIndex
  apply Nat.div_le_div_right
  obtain ⟨h1, _⟩ := roundFloat53_bounds (roundFloat53 count * const095)
  obtain ⟨_, h2⟩ := roundFloat53_bounds (roundFloat53 count * const099)
  generalize roundFloat53 (roundFloat53 count * const095) = R1 at *
  generalize roundFloat53 (roundFloat53 count * const099) = R2 at *
  generalize hA : roundFloat53 count = A at *
  unfold const095 at h1
  unfold const099 at h2
  omega

theorem sortSlice_sorted (l : List Int) : (sortSlice l).Sorted (· ≤ ·) :=
  List.sorted_insertionSort _ l

theorem sortSlice_perm (l : List Int) : (sortSlice l).Perm l :=
  List.perm_insertionSort _ l

theorem sortSlice_length (l : List Int) : (sortSlice l).length = l.length :=
  (sortSlice_perm l).length_eq

theorem sortSlice_getElem_le (l : List Int) (i j : Nat) (hij : i ≤ j) (hj : j < l.length) :
    ∃ a b, (sortSlice l)[i]? = some a ∧ (sortSlice l)[j]? = some b ∧ a ≤ b ∧ b ∈ l := by
  have hj2 : j < (sortSlice l).length := by rw [sortSlice_length]; exact hj
  have hi2 : i < (sortSlice l).length := by omega
  refine ⟨(sortSlice l)[i], (sortSlice l)[j], List.getElem?_eq_getElem hi2,
    List.getElem?_eq_getElem hj2, ?_, (sortSlice_perm l).subset (List.getElem_mem hj2)⟩
  have := (sortSlice_sorted l).rel_get_of_le (show (⟨i, hi2⟩ : Fin _) ≤ ⟨j, hj2⟩ from hij)
  simpa using this

theorem foldl_max_ge (t : List Int) : ∀ a : Int, a ≤ t.foldl max a ∧ ∀ x ∈ t, x ≤ t.foldl max a := by
  induction t with
  | nil => intro a; simp
  | cons b t ih =>
    intro a
    obtain ⟨h1, h2⟩ := ih (max a b)
    simp only [List.foldl_cons, List.mem_cons]
    refine ⟨le_trans (le_max_left a b) h1, ?_⟩
    rintro x (rfl | hx)
    · exact le_trans (le_max_right a x) h1
    · exact h2 x hx

theorem foldl_min_le (t : List Int) : ∀ a : Int, t.foldl min a ≤ a ∧ ∀ x ∈ t, t.foldl min a ≤ x := by
  induction t with
  | nil => intro a; simp
  | cons b t ih =>
    intro a
    obtain ⟨h1, h2⟩ := ih (min a b)
    simp only [List.foldl_cons, List.mem_cons]
    refine ⟨le_trans h1 (min_le_left a b), ?_⟩
    rintro x (rfl | hx)
    · exact le_trans h1 (min_le_right a x)
    · exact h2 x hx

theorem le_maxSample (l : List Int) (x : Int) (hx : x ∈ l) : x ≤ maxSample l := by
  cases l with
  | nil => cases hx
  | cons a t =>
    obtain ⟨h1, h2⟩ := foldl_max_ge t a
    rcases List.mem_cons.mp hx with rfl | h
    · exact h1
    · exact h2 x h

theorem minSample_le (l : List Int) (x : Int) (hx : x ∈ l) : minSample l ≤ x := by
  cases l with
  | nil => cases hx
  | cons a t =>
    obtain ⟨h1, h2⟩ := foldl_min_le t a
    rcases List.mem_cons.mp hx with rfl | h
    · exact h1
    · exact h2 x h

theorem wrapInt64_of_range (x : Int) (h1 : -2 ^ 63 ≤ x) (h2 : x < 2 ^ 63) : wrapInt64 x = x := by
  unfold wrapInt64; omega

theorem wrapInt64_add_wrap (a b : Int) : wrapInt64 (wrapInt64 a + b) = wrapInt64 (a + b) := by
  unfold wrapInt64; omega

theorem foldl_wrap_sum (ls : List Int) :
    ∀ s : Int, ls.foldl (fun s l => wrapInt64 (s + l)) (wrapInt64 s) = wrapInt64 (s + ls.sum) := by
  induction ls with
  | nil => intro s; simp
  | cons a t ih =>
    intro s
    simp only [List.foldl_cons, List.sum_cons]
    rw [wrapInt64_add_wrap, ih (s + a), add_assoc]

theorem sumLatencies_eq (ls : List Int) : sumLatencies ls = wrapInt64 ls.sum := by
  have := foldl_wrap_sum ls 0
  simpa [sumLatencies, wrapInt64] using this

theorem sum_between (l : List Int) (lo hi : Int) (h : ∀ x ∈ l, lo ≤ x ∧ x ≤ hi) :
    lo * l.length ≤ l.sum ∧ l.sum ≤ hi * l.length := by
  induction l with
  | nil => simp
  | cons a t ih =>
    have ha := h a (List.mem_cons_self a t)
    have := ih (fun x hx => h x (List.mem_cons_of_mem a hx))
    simp only [List.length_cons, List.sum_cons, Nat.cast_add, Nat.cast_one, mul_add, mul_one]
    omega

theorem tdiv_between (s n lo hi : Int) (hn : 0 < n) (h1 : lo * n ≤ s) (h2 : s ≤ hi * n) :
    lo ≤ Int.tdiv s n ∧ Int.tdiv s n ≤ hi ∧ (0 ≤ s → 0 ≤ Int.tdiv s n ∧ Int.tdiv s n ≤ s) ∧
      (s < 0 → s ≤ Int.tdiv s n ∧ Int.tdiv s n ≤ 0) := by
  by_cases hs : 0 ≤ s
  · rw [Int.tdiv_eq_ediv hs (le_of_lt hn)]
    have a1 : lo ≤ s / n := Int.le_ediv_of_mul_le hn h1
    have a2 : s / n ≤ hi := by
      have := Int.ediv_le_ediv hn h2
      rwa [Int.mul_ediv_cancel _ (ne_of_gt hn)] at this
    have a3 : 0 ≤ s / n := Int.ediv_nonneg hs (le_of_lt hn)
    have a4 : s / n ≤ s := Int.ediv_le_self _ hs
    exact ⟨a1, a2, fun _ => ⟨a3, a4⟩, fun h => absurd hs (not_le.mpr h)⟩
  · have hs2 : 0 ≤ -s := by omega
    have e : Int.tdiv s n = -((-s) / n) := by
      have := Int.neg_tdiv s n
      rw [Int.tdiv_eq_ediv hs2 (le_of_lt hn)] at this
      omega
    rw [e]
    have a1 : (-s) / n ≤ -lo := by
      have := Int.ediv_le_ediv hn (show -s ≤ (-lo) * n by rw [neg_mul]; omega)
      rwa [Int.mul_ediv_cancel _ (ne_of_gt hn)] at this
    have a2 : -hi ≤ (-s) / n := Int.le_ediv_of_mul_le hn (by rw [neg_mul]; omega)
    have a3 : 0 ≤ (-s) / n := Int.ediv_nonneg hs2 (le_of_lt hn)
    have a4 : (-s) / n ≤ -s := Int.ediv_le_self _ hs2
    exact ⟨by omega, by omega, fun h => absurd h hs, fun _ => ⟨by omega, by omega⟩⟩

theorem meanLatency_eq (samples : List Int) (h : samples ≠ []) :
    meanLatency samples =
      some (wrapInt64 (Int.tdiv (wrapInt64 samples.sum) samples.length)) := by
  have hl : (samples.length : Int) ≠ 0 := by
    have := List.length_pos.mpr h
    omega
  simp [meanLatency, goDiv, hl, sumLatencies_eq]

theorem aggregate_nonempty (samples : List Int) (h : samples ≠ []) :
    ∃ p50 p95 p99 : Int,
      (sortSlice samples)[samples.length / 2]? = some p50 ∧
      (sortSlice samples)[percentileIndex samples.length const095]? = some p95 ∧
      (sortSlice samples)[percentileIndex samples.length const099]? = some p99 ∧
      p50 ≤ p95 ∧ p95 ≤ p99 ∧ p99 ∈ samples ∧
      aggregate samples = some (.stats ⟨samples.length,
        wrapInt64 (Int.tdiv (wrapInt64 samples.sum) samples.length), p50, p95, p99⟩) := by
  have hpos : 1 ≤ samples.length := List.length_pos.mpr h
  have h99 := percentileIndex_lt samples.length const099 (le_refl _) hpos
  obtain ⟨a, b, ha, hb, hab, -⟩ := sortSlice_getElem_le samples _ _
    (percentileIndex_half_le samples.length)
    (lt_of_le_of_lt (percentileIndex_095_le_099 samples.length) h99)
  obtain ⟨b2, c, hb2, hc, hbc, hcm⟩ := sortSlice_getElem_le samples _ _
    (percentileIndex_095_le_099 samples.length) h99
  have : b2 = b := by rw [hb] at hb2; exact (Option.some.inj hb2).symm
  subst this
  refine ⟨a, b2, c, ha, hb, hc, hab, hbc, hcm, ?_⟩
  have h0 : samples.length ≠ 0 := by omega
  simp [aggregate, h0, ha, hb, hc, meanLatency_eq samples h]

/-- C3: for every non-empty list of latency samples, with the list sorted ascending and
`p50`, `p95`, `p99` read at the indices `count/2`, `int(float64(count)*0.95)` and
`int(float64(count)*0.99)` (which are `floor(0.95*count)` and `floor(0.99*count)` for every
`count < 2^46`), the reported values satisfy `p50 ≤ p95 ≤ p99 ≤ max(samples)`. -/
theorem percentiles_ordered (samples : List Int) (h : samples ≠ []) :
    ∃ st : Stats, aggregate samples = some (.stats st) ∧
      (sortSlice samples).Sorted (· ≤ ·) ∧ (sortSlice samples).Perm samples ∧
      (sortSlice samples)[samples.length / 2]? = some st.p50 ∧
      (sortSlice samples)[percentileIndex samples.length const095]? = some st.p95 ∧
      (sortSlice samples)[percentileIndex samples.length const099]? = some st.p99 ∧
      (samples.length < 2 ^ 46 →
        percentileIndex samples.length const095 = 95 * samples.length / 100 ∧
        percentileIndex samples.length const099 = 99 * samples.length / 100) ∧
      st.p50 ≤ st.p95 ∧ st.p95 ≤ st.p99 ∧ st.p99 ≤ maxSample samples := by
  obtain ⟨p50, p95, p99, h1, h2, h3, h4, h5, h6, h7⟩ := aggregate_nonempty samples h
  exact ⟨_, h7, sortSlice_sorted _, sortSlice_perm _, h1, h2, h3,
    fun hl => ⟨percentileIndex_095 _ hl, percentileIndex_099 _ hl⟩, h4, h5,
    le_maxSample _ _ h6⟩

/-- Witness for C3 on the samples `30, 10, 20`. -/
theorem percentiles_ordered_witness :
    ([30, 10, 20] : List Int) ≠ [] ∧
    aggregate [30, 10, 20] = some (.stats ⟨3, 20, 20, 30, 30⟩) ∧
    ∃ st : Stats, aggregate [30, 10, 20] = some (.stats st) ∧
      (sortSlice [30, 10, 20]).Sorted (· ≤ ·) ∧ (sortSlice [30, 10, 20]).Perm [30, 10, 20] ∧
      (sortSlice [30, 10, 20])[[(30 : Int), 10, 20].length / 2]? = some st.p50 ∧
      (sortSlice [30, 10, 20])[percentileIndex [(30 : Int), 10, 20].length const095]? =
        some st.p95 ∧
      (sortSlice [30, 10, 20])[percentileIndex [(30 : Int), 10, 20].length const099]? =
        some st.p99 ∧
      ([(30 : Int), 10, 20].length < 2 ^ 46 →
        percentileIndex [(30 : Int), 10, 20].length const095 =
          95 * [(30 : Int), 10, 20].length / 100 ∧
        percentileIndex [(30 : Int), 10, 20].length const099 =
          99 * [(30 : Int), 10, 20].length / 100) ∧
      st.p50 ≤ st.p95 ∧ st.p95 ≤ st.p99 ∧ st.p99 ≤ maxSample [30, 10, 20] :=
  ⟨by decide, by decide, percentiles_ordered [30, 10, 20] (by decide)⟩

/-- C4 (as stated, refuted): two samples of `2^62` ns each make the running `int64` sum
wrap to `-2^63`, so the reported mean is `-2^62`, below the minimum sample `2^62`. -/
theorem mean_below_min_on_overflow :
    aggregate [4611686018427387904, 4611686018427387904] =
      some (.stats ⟨2, -4611686018427387904, 4611686018427387904, 4611686018427387904,
        4611686018427387904⟩) ∧
    ¬ (minSample [4611686018427387904, 4611686018427387904] ≤ -4611686018427387904) := by
  decide

/-- C4 (amended): for every non-empty list of latency samples whose exact sum fits in an
`int64`, the reported mean is the truncated quotient `sum / count` and lies between the
minimum and the maximum sample. -/
theorem mean_between (samples : List Int) (h : samples ≠ [])
    (hlo : -2 ^ 63 ≤ samples.sum) (hhi : samples.sum < 2 ^ 63) :
    ∃ st : Stats, aggregate samples = some (.stats st) ∧
      meanLatency samples = some st.avg ∧
      st.avg = Int.tdiv samples.sum samples.length ∧
      minSample samples ≤ st.avg ∧ st.avg ≤ maxSample samples := by
  obtain ⟨p50, p95, p99, -, -, -, -, -, -, h7⟩ := aggregate_nonempty samples h
  have hn : (0 : Int) < samples.length := by
    have := List.length_pos.mpr h
    omega
  obtain ⟨b1, b2⟩ := sum_between samples (minSample samples) (maxSample samples)
    (fun x hx => ⟨minSample_le _ _ hx, le_maxSample _ _ hx⟩)
  obtain ⟨t1, t2, t3, t4⟩ := tdiv_between samples.sum samples.length _ _ hn b1 b2
  have e1 : wrapInt64 samples.sum = samples.sum := wrapInt64_of_range _ hlo hhi
  have e2 : wrapInt64 (Int.tdiv samples.sum samples.length) =
      Int.tdiv samples.sum samples.length := by
    apply wrapInt64_of_range
    · by_cases hs : 0 ≤ samples.sum
      · have := (t3 hs).1; omega
      · have := (t4 (by omega)).1; omega
    · by_cases hs : 0 ≤ samples.sum
      · have := (t3 hs).2; omega
      · have := (t4 (by omega)).2; omega
  rw [e1, e2] at h7
  refine ⟨_, h7, ?_, rfl, t1, t2⟩
  rw [meanLatency_eq samples h, e1, e2]

/-- Witness for C4 on the samples `30, 10, 21`. -/
theorem mean_between_witness :
    (([30, 10, 21] : List Int) ≠ [] ∧ -2 ^ 63 ≤ ([30, 10, 21] : List Int).sum ∧
      ([30, 10, 21] : List Int).sum < 2 ^ 63) ∧
    meanLatency [30, 10, 21] = some 20 ∧
    ∃ st : Stats, aggregate [30, 10, 21] = some (.stats st) ∧
      meanLatency [30, 10, 21] = some st.avg ∧
      st.avg = Int.tdiv ([30, 10, 21] : List Int).sum ([30, 10, 21] : List Int).length ∧
      minSample [30, 10, 21] ≤ st.avg ∧ st.avg ≤ maxSample [30, 10, 21] :=
  ⟨by decide, by decide, mean_between [30, 10, 21] (by decide) (by decide) (by decide)⟩

/-- C9: the aggregator returns a report for every list of samples.  It reports "No
successful transactions!" exactly for the empty list, computing nothing else; for
`count ≥ 1` the three indices `count/2`, `int(float64(count)*0.95)` and
`int(float64(count)*0.99)` (equal to `floor(0.95*count)` and `floor(0.99*count)` for
`count < 2^46`) are below `count` and the divisor `count` is non-zero, so the statistics
are computed without an out-of-range index or a division by zero. -/
theorem aggregate_total (samples : List Int) :
    (aggregate samples = some .noSuccess ↔ samples = []) ∧
    (samples ≠ [] →
      samples.length / 2 < samples.length ∧
      percentileIndex samples.length const095 < samples.length ∧
      percentileIndex samples.length const099 < samples.length ∧
      (samples.length < 2 ^ 46 →
        percentileIndex samples.length const095 = 95 * samples.length / 100 ∧
        percentileIndex samples.length const099 = 99 * samples.length / 100) ∧
      (samples.length : Int) ≠ 0 ∧
      ∃ st : Stats, aggregate samples = some (.stats st) ∧ st.count = samples.length) := by
  constructor
  · constructor
    · intro ha
      by_contra hne
      obtain ⟨p50, p95, p99, -, -, -, -, -, -, h7⟩ := aggregate_nonempty samples hne
      rw [h7] at ha
      cases ha
    · rintro rfl; rfl
  · intro hne
    have hpos : 1 ≤ samples.length := List.length_pos.mpr hne
    obtain ⟨p50, p95, p99, -, -, -, -, -, -, h7⟩ := aggregate_nonempty samples hne
    exact ⟨by omega, percentileIndex_lt _ _ (by decide) hpos,
      percentileIndex_lt _ _ (le_refl _) hpos,
      fun hl => ⟨percentileIndex_095 _ hl, percentileIndex_099 _ hl⟩, by omega, _, h7, rfl⟩

/-- Witness for C9 on the empty list and on the samples `30, 10, 20`. -/
theorem aggregate_total_witness :
    aggregate [] = some .noSuccess ∧
    ([(30 : Int), 10, 20].length / 2 < [(30 : Int), 10, 20].length ∧
      percentileIndex [(30 : Int), 10, 20].length const095 < [(30 : Int), 10, 20].length ∧
      percentileIndex [(30 : Int), 10, 20].length const099 < [(30 : Int), 10, 20].length ∧
      ([(30 : Int), 10, 20].length < 2 ^ 46 →
        percentileIndex [(30 : Int), 10, 20].length const095 =
          95 * [(30 : Int), 10, 20].length / 100 ∧
        percentileIndex [(30 : Int), 10, 20].length const099 =
          99 * [(30 : Int), 10, 20].length / 100) ∧
      ([(30 : Int), 10, 20].length : Int) ≠ 0 ∧
      ∃ st : Stats, aggregate [30, 10, 20] = some (.stats st) ∧
        st.count = [(30 : Int), 10, 20].length) :=
  ⟨(aggregate_total []).1.mpr rfl, (aggregate_total [30, 10, 20]).2 (by decide)⟩

/-! ## Claims on `query` and the final check -/

theorem bytesIndex_le_length (sep : List Byte) :
    ∀ (s : List Byte) (m : Nat), bytesIndex s sep = some m → m + sep.length ≤ s.length := by
  intro s
  induction s with
  | nil =>
    intro m hm
    unfold bytesIndex at hm
    by_cases h : sep.isPrefixOf [] = true
    · have : sep = [] := by simpa using h
      subst this
      simp at hm; subst hm; simp
    · simp [h] at hm
  | cons b t ih =>
    intro m hm
    unfold bytesIndex at hm
    by_cases h : sep.isPrefixOf (b :: t) = true
    · simp only [h, if_true, Option.some.injEq] at hm
      subst hm
      have := (List.isPrefixOf_iff_prefix.mp h).length_le
      omega
    · simp only [h, Bool.false_eq_true, if_false, Option.map_eq_some'] at hm
      obtain ⟨k, hk, rfl⟩ := hm
      have := ih k hk
      simp only [List.length_cons]
      omega

theorem bytesIndex_some_length (s sep : List Byte) (m : Nat) (h : bytesIndex s sep = some m) :
    m + sep.length + (s.drop (m + sep.length)).length = s.length ∧ m + sep.length ≤ s.length := by
  have h1 := bytesIndex_le_length sep s m h
  simp only [List.length_drop]
  omega

theorem bytesCount_none (fuel : Nat) (s sep : List Byte) (h : bytesIndex s sep = none) :
    bytesCount fuel s sep = 0 := by
  cases fuel <;> simp [bytesCount, h]

theorem genSplit_all_none (s sep : List Byte) (hsep : sep ≠ []) (h : bytesIndex s sep = none) :
    genSplit s sep (-1) = [s] := by
  have he : sep.isEmpty = false := by
    cases sep with
    | nil => exact absurd rfl hsep
    | cons _ _ => rfl
  simp [genSplit, he, bytesCount_none _ _ _ h, genSplitLoop]

theorem genSplit_all_some (s sep : List Byte) (hsep : sep ≠ []) (m : Nat)
    (h : bytesIndex s sep = some m) :
    ∃ tl, genSplit s sep (-1) = s.take m ::
      (match bytesIndex (s.drop (m + sep.length)) sep with
        | none => s.drop (m + sep.length)
        | some m2 => (s.drop (m + sep.length)).take m2) :: tl := by
  have he : sep.isEmpty = false := by
    cases sep with
    | nil => exact absurd rfl hsep
    | cons _ _ => rfl
  have hsl : 1 ≤ sep.length := List.length_pos.mpr hsep
  obtain ⟨hl1, hl2⟩ := bytesIndex_some_length s sep m h
  obtain ⟨L, hL⟩ : ∃ L, s.length = L + 1 := ⟨s.length - 1, by omega⟩
  cases h1 : bytesIndex (s.drop (m + sep.length)) sep with
  | none =>
    refine ⟨[], ?_⟩
    simp [genSplit, he, hL, bytesCount, h, bytesCount_none _ _ _ h1, genSplitLoop]
  | some m2 =>
    obtain ⟨hl3, hl4⟩ := bytesIndex_some_length _ sep m2 h1
    obtain ⟨L2, hL2⟩ : ∃ L2, L = L2 + 1 := ⟨L - 1, by omega⟩
    subst hL2
    have hn : ∀ c : Nat, (if 1 + (1 + c) + 1 > L2 + 1 + 1 + 1 then L2 + 1 + 1 + 1
        else 1 + (1 + c) + 1) - 1 = ((if 1 + (1 + c) + 1 > L2 + 1 + 1 + 1 then L2 + 1
        else c + 1) - 1) + 1 + 1 := by
      intro c; split <;> omega
    simp only [genSplit, he, hL, bytesCount, h, h1, Int.reduceNeg, Left.neg_neg_iff,
      zero_lt_one, if_true, Bool.false_eq_true, if_false, neg_eq_zero, one_ne_zero, hn,
      genSplitLoop]
    exact ⟨_, rfl⟩

theorem bytesIndex_single (c : Byte) (r : List Byte) :
    (match bytesIndex r [c] with
      | none => r
      | some q => r.take q) = r.takeWhile (· ≠ c) := by
  induction r with
  | nil => simp [bytesIndex]
  | cons b t ih =>
    unfold bytesIndex
    by_cases hb : c = b
    · subst hb; simp
    · have hb2 : decide (b ≠ c) = true := by
        simp only [ne_eq, decide_eq_true_eq]
        exact fun h => hb h.symm
      have hp : List.isPrefixOf [c] (b :: t) = false := by
        simp [List.isPrefixOf, hb]
      have e : (b :: t).takeWhile (· ≠ c) = b :: t.takeWhile (· ≠ c) :=
        List.takeWhile_cons_of_pos hb2
      rw [e, ← ih, hp]
      cases hq : bytesIndex t [c] with
      | none => simp only [Bool.false_eq_true, if_false, hq, Option.map_none']
      | some q =>
        simp only [Bool.false_eq_true, if_false, hq, Option.map_some', List.take_succ_cons]

theorem genSplit_two_head (r : List Byte) :
    ∃ tl, genSplit r quoteSep 2 = r.takeWhile (· ≠ (34 : Byte)) :: tl := by
  cases r with
  | nil => exact ⟨[], by simp [genSplit, quoteSep, genSplitLoop]⟩
  | cons b t =>
    have key := bytesIndex_single 34 (b :: t)
    have e : genSplit (b :: t) quoteSep 2 = genSplitLoop 1 (b :: t) [34] := by
      have h2 : ¬ t.length + 1 + 1 < 2 := by omega
      simp [genSplit, quoteSep, h2]
    rw [e, ← key]
    unfold genSplitLoop
    cases hq : bytesIndex (b :: t) [34] with
    | none => exact ⟨[], rfl⟩
    | some q => exact ⟨_, rfl⟩

theorem takeWhile_append_stop (p : Byte → Bool) (A B : List Byte) (x : Byte) (hx : p x = false) :
    (A ++ x :: B).takeWhile p = A.takeWhile p := by
  induction A with
  | nil => simp [List.takeWhile_cons, hx]
  | cons a A ih =>
    simp only [List.cons_append, List.takeWhile_cons]
    split
    · rw [ih]
    · rfl

theorem query_token (st : Int) (body : List Byte) (m : Nat)
    (h : bytesIndex body valueMarker = some m) :
    query (.response st body) =
      some ((decodeString (tokenOf (body.drop (m + valueMarker.length)))).1,
        if (decodeString (tokenOf (body.drop (m + valueMarker.length)))).2
        then some .corruptInput else none) := by
  obtain ⟨tl, htl⟩ := genSplit_all_some body valueMarker (by decide) m h
  have hr1 : (match bytesIndex (body.drop (m + valueMarker.length)) valueMarker with
      | none => body.drop (m + valueMarker.length)
      | some m2 => (body.drop (m + valueMarker.length)).take m2).takeWhile (· ≠ (34 : Byte)) =
      tokenOf (body.drop (m + valueMarker.length)) := by
    cases h1 : bytesIndex (body.drop (m + valueMarker.length)) valueMarker with
    | none => rfl
    | some m2 =>
      simp only
      have h2 := (bytesIndex_some valueMarker _ m2 h1).1
      unfold tokenOf
      conv_rhs => rw [h2]
      rw [List.append_assoc]
      exact (takeWhile_append_stop _ _ _ 34 (by decide)).symm
  generalize (match bytesIndex (body.drop (m + valueMarker.length)) valueMarker with
      | none => body.drop (m + valueMarker.length)
      | some m2 => (body.drop (m + valueMarker.length)).take m2) = r1 at htl hr1
  obtain ⟨tl2, htl2⟩ := genSplit_two_head r1
  have hlen : ¬ (body.take m :: r1 :: tl).length < 2 := by
    simp only [List.length_cons]; omega
  simp only [query, htl, hlen, if_false, List.getElem?_cons_succ, List.getElem?_cons_zero,
    htl2, hr1]

theorem query_no_marker (st : Int) (body : List Byte) (h : ¬ valueMarker <:+: body) :
    query (.response st body) = some ([], some .noValue) := by
  have h1 := (bytesIndex_eq_none_iff valueMarker body).mpr h
  simp [query, genSplit_all_none body valueMarker (by decide) h1]

theorem decodeMap_encodeChar : ∀ v : Nat, v < 64 → decodeMap (encodeChar v) = some v := by
  decide

theorem decodeFrom_char (v : Nat) (hv : v < 64) (rest : List Byte) (j : Nat) (dbuf : List Nat)
    (acc : List Byte) :
    decodeFrom (encodeChar v :: rest) j dbuf acc =
      if j = 3 then decodeFrom rest 0 [] (acc ++ quantumBytes (dbuf ++ [v]) 4)
      else decodeFrom rest (j + 1) (dbuf ++ [v]) acc := by
  rw [decodeFrom, decodeMap_encodeChar v hv]

theorem quantumBytes_full (b0 b1 b2 : Byte) :
    quantumBytes [(b0.val * 2 ^ 16 + b1.val * 2 ^ 8 + b2.val) / 2 ^ 18 % 64,
      (b0.val * 2 ^ 16 + b1.val * 2 ^ 8 + b2.val) / 2 ^ 12 % 64,
      (b0.val * 2 ^ 16 + b1.val * 2 ^ 8 + b2.val) / 2 ^ 6 % 64,
      (b0.val * 2 ^ 16 + b1.val * 2 ^ 8 + b2.val) % 64] 4 = [b0, b1, b2] := by
  have h0 := b0.isLt
  have h1 := b1.isLt
  have h2 := b2.isLt
  simp only [quantumBytes, List.getD_cons_zero, List.getD_cons_succ, byteOf,
    Nat.shiftRight_eq_div_pow, List.take_succ_cons, List.take_zero, List.cons.injEq,
    and_true]
  refine ⟨Fin.ext ?_, Fin.ext ?_, Fin.ext ?_⟩ <;> simp only <;> omega

theorem quantumBytes_two (b0 b1 : Byte) :
    quantumBytes [(b0.val * 2 ^ 16 + b1.val * 2 ^ 8) / 2 ^ 18 % 64,
      (b0.val * 2 ^ 16 + b1.val * 2 ^ 8) / 2 ^ 12 % 64,
      (b0.val * 2 ^ 16 + b1.val * 2 ^ 8) / 2 ^ 6 % 64] 3 = [b0, b1] := by
  have h0 := b0.isLt
  have h1 := b1.isLt
  simp only [quantumBytes, List.getD_cons_zero, List.getD_cons_succ, List.getD_nil, byteOf,
    Nat.shiftRight_eq_div_pow, List.take_succ_cons, List.take_zero, List.cons.injEq,
    and_true]
  refine ⟨Fin.ext ?_, Fin.ext ?_⟩ <;> simp only <;> omega

theorem quantumBytes_one (b0 : Byte) :
    quantumBytes [(b0.val * 2 ^ 16) / 2 ^ 18 % 64, (b0.val * 2 ^ 16) / 2 ^ 12 % 64] 2 = [b0] := by
  have h0 := b0.isLt
  simp only [quantumBytes, List.getD_cons_zero, List.getD_cons_succ, List.getD_nil, byteOf,
    Nat.shiftRight_eq_div_pow, List.take_succ_cons, List.take_zero, List.cons.injEq,
    and_true]
  refine Fin.ext ?_
  simp only
  omega

theorem skipNewlines_nil : skipNewlines [] = [] := rfl

theorem skipNewlines_pad (t : List Byte) : skipNewlines ((61 : Byte) :: t) = (61 : Byte) :: t := by
  rw [skipNewlines, if_neg (by decide)]

theorem decodeFrom_pad2 (dbuf : List Nat) (acc : List Byte) :
    decodeFrom [61, 61] 2 dbuf acc = (acc ++ quantumBytes dbuf 2, false) := by
  rw [decodeFrom]
  simp only [show decodeMap (61 : Byte) = none by decide,
    show isNewline (61 : Byte) = false by decide, skipNewlines_pad, skipNewlines_nil]
  simp

theorem decodeFrom_pad1 (dbuf : List Nat) (acc : List Byte) :
    decodeFrom [61] 3 dbuf acc = (acc ++ quantumBytes dbuf 3, false) := by
  rw [decodeFrom]
  simp only [show decodeMap (61 : Byte) = none by decide,
    show isNewline (61 : Byte) = false by decide, skipNewlines_nil]
  simp

theorem decodeFrom_encodeToString :
    ∀ (n : Nat) (bs : List Byte), bs.length ≤ n → ∀ acc : List Byte,
      decodeFrom (encodeToString bs) 0 [] acc = (acc ++ bs, false) := by
  intro n
  induction n using Nat.strong_induction_on with
  | _ n ih =>
    intro bs hn acc
    match bs, hn with
    | [], _ => simp [encodeToString, decodeFrom]
    | [b0], _ =>
      rw [encodeToString, decodeFrom_char _ (Nat.mod_lt _ (by decide)), if_neg (by decide),
        decodeFrom_char _ (Nat.mod_lt _ (by decide)), if_neg (by decide), decodeFrom_pad2]
      simp only [List.nil_append, List.cons_append, List.singleton_append]
      exact congrArg (fun l => (acc ++ l, false)) (quantumBytes_one b0)
    | [b0, b1], _ =>
      rw [encodeToString, decodeFrom_char _ (Nat.mod_lt _ (by decide)), if_neg (by decide),
        decodeFrom_char _ (Nat.mod_lt _ (by decide)), if_neg (by decide),
        decodeFrom_char _ (Nat.mod_lt _ (by decide)), if_neg (by decide), decodeFrom_pad1]
      simp only [List.nil_append, List.cons_append, List.singleton_append]
      exact congrArg (fun l => (acc ++ l, false)) (quantumBytes_two b0 b1)
    | b0 :: b1 :: b2 :: rest, hn =>
      rw [encodeToString, decodeFrom_char _ (Nat.mod_lt _ (by decide)), if_neg (by decide),
        decodeFrom_char _ (Nat.mod_lt _ (by decide)), if_neg (by decide),
        decodeFrom_char _ (Nat.mod_lt _ (by decide)), if_neg (by decide),
        decodeFrom_char _ (Nat.mod_lt _ (by decide)), if_pos (by decide)]
      simp only [List.nil_append, List.cons_append, List.singleton_append]
      simp only [List.length_cons] at hn
      rw [quantumBytes_full, ih rest.length (by omega) rest (le_refl _)]
      simp

theorem decodeString_encodeToString (bs : List Byte) :
    decodeString (encodeToString bs) = (bs, false) := by
  have := decodeFrom_encodeToString bs.length bs (le_refl _) []
  simpa [decodeString] using this

theorem uint64LE_some (l : List Byte) (h : 8 ≤ l.length) : ∃ x, uint64LE l = some x := by
  rcases l with _ | ⟨b0, _ | ⟨b1, _ | ⟨b2, _ | ⟨b3, _ | ⟨b4, _ | ⟨b5, _ | ⟨b6, _ | ⟨b7, t⟩⟩⟩⟩⟩⟩⟩⟩ <;>
    simp at h
  exact ⟨_, rfl⟩

theorem verifyLoop_some (val : List Byte) (fuel : Nat) :
    ∀ i total : Nat, (val.length - i) / 8 < fuel → ∃ t, verifyLoop val fuel i total = some t := by
  induction fuel with
  | zero => intro i total h; omega
  | succ f ih =>
    intro i total h
    unfold verifyLoop
    by_cases hi : i + 8 ≤ val.length
    · simp only [hi, if_true]
      obtain ⟨x, hx⟩ := uint64LE_some ((val.drop i).take 8)
        (by simp only [List.length_take, List.length_drop]; omega)
      rw [hx]
      exact ih _ _ (by omega)
    · simp only [hi, if_false]
      exact ⟨_, rfl⟩

theorem committedTotal_some (val : List Byte) : ∃ t, committedTotal val = some t :=
  verifyLoop_some val _ 0 0 (by omega)

theorem reportedTotal_some (resp : HttpResult) : ∃ t, reportedTotal resp = some t := by
  cases resp with
  | transportError => exact ⟨0, by decide⟩
  | response st body =>
    cases hm : bytesIndex body valueMarker with
    | none =>
      have := query_no_marker st body ((bytesIndex_eq_none_iff _ _).mp hm)
      exact ⟨0, by simp only [reportedTotal, this]; decide⟩
    | some m =>
      simp only [reportedTotal, query_token st body m hm]
      exact committedTotal_some _

theorem reportedTotal_no_marker (st : Int) (body : List Byte) (h : ¬ valueMarker <:+: body) :
    reportedTotal (.response st body) = some 0 := by
  simp only [reportedTotal, query_no_marker st body h]; decide

/-- C8 (failing input): for the body `{"value":"AQAAAAAAAAACAAAAAAAAAA`, cut off inside
the value, `query` returns a non-nil error together with the fifteen bytes decoded before
the corrupt tail, and the final check reports the committed total `1`, not `0`. -/
theorem reportedTotal_truncated :
    query (.response 200 truncatedBody) =
      some ([1, 0, 0, 0, 0, 0, 0, 0, 2, 0, 0, 0, 0, 0, 0], some .corruptInput) ∧
    reportedTotal (.response 200 truncatedBody) = some 1 := by
  decide

theorem getElem?_split {α : Type} (ws : List α) :
    ∀ (w : Nat) (a : α), ws[w]? = some a →
      ∃ pre post, ws = pre ++ a :: post ∧ ∀ b, ws.set w b = pre ++ b :: post := by
  induction ws with
  | nil => intro w a h; simp at h
  | cons x xs ih =>
    intro w a h
    cases w with
    | zero =>
      simp only [List.getElem?_cons_zero, Option.some.injEq] at h
      subst h
      exact ⟨[], xs, rfl, fun b => rfl⟩
    | succ w =>
      simp only [List.getElem?_cons_succ] at h
      obtain ⟨pre, post, h1, h2⟩ := ih w a h
      exact ⟨x :: pre, post, by rw [h1]; rfl, fun b => by rw [List.set_cons_succ, h2 b]; rfl⟩

theorem held_append (a b : List Worker) : held (a ++ b) = held a ++ held b := by
  simp [held, List.filterMap_append]

theorem exitedCount_append (a b : List Worker) :
    exitedCount (a ++ b) = exitedCount a + exitedCount b := by
  simp [exitedCount, List.count_append]

theorem exitedCount_le (a : List Worker) : exitedCount a ≤ a.length := List.count_le_length _ _

theorem inv_init (total concur : Int) (h0 : 0 ≤ total) :
    Inv total concur.toNat (initPool concur) := by
  refine ⟨le_refl _, by simp [initPool], ?_, ?_, ?_⟩
  · have : exitedCount (List.replicate concur.toNat Worker.claiming) = 0 := by
      simp [exitedCount, List.count_replicate]
    simp only [initPool, this]
    omega
  · have : held (List.replicate concur.toNat Worker.claiming) = [] := by
      simp [held, List.filterMap_replicate]
    simp [initPool, this]
  · intro i
    have : held (List.replicate concur.toNat Worker.claiming) = [] := by
      simp [held, List.filterMap_replicate]
    simp only [initPool, this, List.append_nil, List.not_mem_nil, false_iff]
    omega

theorem held_claiming (t : List Worker) : held (Worker.claiming :: t) = held t := rfl

theorem held_exited (t : List Worker) : held (Worker.exited :: t) = held t := rfl

theorem held_holding (i : Int) (t : List Worker) : held (Worker.holding i :: t) = i :: held t :=
  rfl

theorem exitedCount_claiming (t : List Worker) :
    exitedCount (Worker.claiming :: t) = exitedCount t := by
  simp [exitedCount, List.count_cons]

theorem exitedCount_holding (i : Int) (t : List Worker) :
    exitedCount (Worker.holding i :: t) = exitedCount t := by
  simp [exitedCount, List.count_cons]

theorem exitedCount_exited (t : List Worker) :
    exitedCount (Worker.exited :: t) = exitedCount t + 1 := by
  simp [exitedCount, List.count_cons]

theorem inv_step (total : Int) (n : Nat) (h2 : total + n ≤ 2 ^ 31 - 1)
    (p : Pool) (w : Nat) (hp : Inv total n p) : Inv total n (step total p w) := by
  obtain ⟨sent, ws, sub⟩ := p
  obtain ⟨hs, hl, he, hn, hm⟩ := hp
  simp only at hs hl he hn hm
  unfold step
  simp only
  cases hw : ws[w]? with
  | none => exact ⟨hs, hl, he, hn, hm⟩
  | some a =>
    obtain ⟨pre, post, e1, e2⟩ := getElem?_split ws w a hw
    subst e1
    cases a with
    | exited => exact ⟨hs, hl, he, hn, hm⟩
    | holding idx =>
      simp only [e2]
      have hperm : ((sub ++ [idx]) ++ held (pre ++ Worker.claiming :: post)).Perm
          (sub ++ held (pre ++ Worker.holding idx :: post)) := by
        simp only [held_append, held_claiming, held_holding, List.append_assoc]
        apply List.Perm.append_left
        simp only [List.singleton_append]
        exact List.perm_middle.symm
      refine ⟨hs, ?_, ?_, hperm.nodup_iff.mpr hn, fun i => ?_⟩
      · simpa using hl
      · simp only [exitedCount_append, exitedCount_holding, exitedCount_claiming] at he ⊢
        exact he
      · simp only
        rw [hperm.mem_iff]
        exact hm i
    | claiming =>
      have hcount : exitedCount (pre ++ Worker.claiming :: post) + 1 ≤ n := by
        rw [← hl, exitedCount_append, exitedCount_claiming, List.length_append,
          List.length_cons]
        have a1 := exitedCount_le pre
        have a2 := exitedCount_le post
        omega
      have hwrap : wrapInt32 (sent + 1) = sent + 1 := by
        unfold wrapInt32
        have : (exitedCount (pre ++ Worker.claiming :: post) : Int) + 1 ≤ n := by
          exact_mod_cast hcount
        omega
      simp only [hwrap, add_sub_cancel_right, e2]
      by_cases hge : sent ≥ total
      · simp only [hge, if_true]
        refine ⟨by simp only; omega, by simpa using hl, ?_, ?_, fun i => ?_⟩
        · simp only [exitedCount_append, exitedCount_exited, exitedCount_claiming] at he ⊢
          push_cast
          omega
        · simpa only [held_append, held_exited, held_claiming] using hn
        · have := hm i
          simp only [held_append, held_exited, held_claiming] at this ⊢
          rw [this]
          omega
      · simp only [hge, if_false]
        have hperm : (sub ++ held (pre ++ Worker.holding sent :: post)).Perm
            (sent :: (sub ++ held (pre ++ Worker.claiming :: post))) := by
          simp only [held_append, held_claiming, held_holding]
          rw [← List.append_assoc, ← List.append_assoc]
          exact List.perm_middle
        refine ⟨by simp only; omega, by simpa using hl, ?_, ?_, fun i => ?_⟩
        · simp only [exitedCount_append, exitedCount_holding, exitedCount_claiming] at he ⊢
          omega
        · simp only
          rw [hperm.nodup_iff, List.nodup_cons]
          refine ⟨fun hin => ?_, hn⟩
          have := (hm sent).mp hin
          omega
        · simp only
          rw [hperm.mem_iff, List.mem_cons, hm i]
          omega

theorem inv_run (total : Int) (n : Nat) (h2 : total + n ≤ 2 ^ 31 - 1)
    (sched : List Nat) : ∀ p : Pool, Inv total n p → Inv total n (run total p sched) := by
  induction sched with
  | nil => intro p hp; exact hp
  | cons w ws ih =>
    intro p hp
    exact ih _ (inv_step total n h2 p w hp)

theorem allExited_held (ws : List Worker) (h : ∀ w ∈ ws, w = Worker.exited) :
    held ws = [] ∧ exitedCount ws = ws.length := by
  induction ws with
  | nil => exact ⟨rfl, rfl⟩
  | cons a t ih =>
    have ha := h a (List.mem_cons_self a t)
    subst ha
    obtain ⟨i1, i2⟩ := ih (fun w hw => h w (List.mem_cons_of_mem _ hw))
    exact ⟨by rw [held_exited, i1], by rw [exitedCount_exited, i2]; rfl⟩

theorem run_no_workers (total : Int) (sched : List Nat) :
    ∀ p : Pool, p.workers = [] → run total p sched = p := by
  induction sched with
  | nil => intro p _; rfl
  | cons w ws ih =>
    intro p hp
    have hstep : step total p w = p := by
      unfold step
      rw [hp]
      rfl
    show run total (step total p w) ws = p
    rw [hstep]
    exact ih p hp

/-- C2 (amended): for every `total` and every number of workers `concur` such that
`total + concur ≤ 2^31 - 1` whenever `concur ≥ 1` and `total ≥ 0` (the `int32` counter
`sent` cannot wrap).  If `total` is negative or above the largest channel capacity,
`main` panics in `make(chan ...)` before any worker starts.  Otherwise, in every
interleaving of the workers, no index is submitted twice and every submitted index is in
`[0, total)`; with `concur ≤ 0` nothing is submitted; with `concur ≥ 1`, once all workers
have exited the submitted indices are exactly `0, ..., total - 1`. -/
theorem closedLoop_exact (chanCap total concur : Int) (sched : List Nat)
    (h : 1 ≤ concur → 0 ≤ total → total + concur ≤ 2 ^ 31 - 1) :
    (total < 0 ∨ chanCap < total → closedLoop chanCap total concur sched = none) ∧
    (0 ≤ total ∧ total ≤ chanCap →
      ∃ p, closedLoop chanCap total concur sched = some p ∧
        p.submitted.Nodup ∧
        (∀ i ∈ p.submitted, 0 ≤ i ∧ i < total) ∧
        (concur ≤ 0 → p.submitted = []) ∧
        (1 ≤ concur → allExited p = true → ∀ i, i ∈ p.submitted ↔ 0 ≤ i ∧ i < total)) := by
  refine ⟨fun hp => by simp only [closedLoop, hp, if_true], fun hr => ?_⟩
  obtain ⟨h0, hcap⟩ := hr
  have hnp : ¬ (total < 0 ∨ chanCap < total) := by omega
  refine ⟨run total (initPool concur) sched, by simp only [closedLoop, hnp, if_false], ?_⟩
  by_cases h1 : 1 ≤ concur
  · have h2 := h h1 h0
    have hn : (concur.toNat : Int) = concur := Int.toNat_of_nonneg (by omega)
    have hinv := inv_run total concur.toNat (by rw [hn]; exact h2) sched _
      (inv_init total concur h0)
    refine ⟨List.Nodup.of_append_left hinv.nodup, ?_, fun hc => absurd h1 (by omega), ?_⟩
    · intro i hi
      have := (hinv.mem i).mp (List.mem_append_left _ hi)
      omega
    · intro _ hall i
      have hall2 : ∀ w ∈ (run total (initPool concur) sched).workers, w = Worker.exited := by
        intro w hw
        have := List.all_eq_true.mp hall w hw
        simpa using this
      obtain ⟨e1, e2⟩ := allExited_held _ hall2
      have he := hinv.exited
      have hm := hinv.mem i
      rw [e1, List.append_nil] at hm
      rw [e2, hinv.len, hn] at he
      rw [hm]
      omega
  · have hz : concur.toNat = 0 := by omega
    have hrun : run total (initPool concur) sched = ⟨0, [], []⟩ := by
      have hi : initPool concur = ⟨0, [], []⟩ := by
        simp only [initPool, hz, List.replicate_zero]
      rw [hi]
      exact run_no_workers total sched _ rfl
    rw [hrun]
    exact ⟨List.nodup_nil, fun i hi => absurd hi (List.not_mem_nil i), fun _ => rfl,
      fun hc => absurd hc h1⟩

/-- Witness for C2 with `total = 3` and two workers, on an interleaving that ends with
both workers exited. -/
theorem closedLoop_exact_witness :
    ((1 : Int) ≤ 2 → (0 : Int) ≤ 3 → (3 : Int) + 2 ≤ 2 ^ 31 - 1) ∧
    ((0 : Int) ≤ 3 ∧ (3 : Int) ≤ chanCapLinux64) ∧
    closedLoop chanCapLinux64 3 2 [0, 1, 0, 1, 1, 0, 0, 1, 1] =
      some ⟨5, [Worker.exited, Worker.exited], [0, 1, 2]⟩ ∧
    allExited ⟨5, [Worker.exited, Worker.exited], [0, 1, 2]⟩ = true ∧
    ∃ p, closedLoop chanCapLinux64 3 2 [0, 1, 0, 1, 1, 0, 0, 1, 1] = some p ∧
      p.submitted.Nodup ∧
      (∀ i ∈ p.submitted, 0 ≤ i ∧ i < 3) ∧
      ((2 : Int) ≤ 0 → p.submitted = []) ∧
      ((1 : Int) ≤ 2 → allExited p = true → ∀ i, i ∈ p.submitted ↔ 0 ≤ i ∧ i < 3) :=
  ⟨fun _ _ => by decide, by decide, by decide, by decide,
    (closedLoop_exact chanCapLinux64 3 2 [0, 1, 0, 1, 1, 0, 0, 1, 1]
      (fun _ _ => by decide)).2 (by decide)⟩

theorem run_append (total : Int) (p : Pool) (a b : List Nat) :
    run total p (a ++ b) = run total (run total p a) b := by
  simp [run, List.foldl_append]

theorem step_claim (total sent : Int) (ws : List Worker) (sub : List Int) (w : Nat)
    (hw : ws[w]? = some Worker.claiming) :
    step total ⟨sent, ws, sub⟩ w =
      if wrapInt32 (sent + 1) - 1 ≥ total then ⟨wrapInt32 (sent + 1), ws.set w .exited, sub⟩
      else ⟨wrapInt32 (sent + 1), ws.set w (.holding (wrapInt32 (sent + 1) - 1)), sub⟩ := by
  simp only [step, hw]

theorem step_submit (total sent idx : Int) (ws : List Worker) (sub : List Int) (w : Nat)
    (hw : ws[w]? = some Worker.claiming) :
    step total ⟨sent, ws.set w (.holding idx), sub⟩ w = ⟨sent, ws, sub ++ [idx]⟩ := by
  obtain ⟨pre, post, e1, e2⟩ := getElem?_split ws w _ hw
  have hlt : w < ws.length := by
    by_contra hc
    rw [List.getElem?_eq_none (by omega)] at hw
    cases hw
  have h1 : (ws.set w (Worker.holding idx))[w]? = some (Worker.holding idx) :=
    List.getElem?_set_self hlt
  have h2 : (ws.set w (Worker.holding idx)).set w Worker.claiming = ws := by
    rw [List.set_set, e2, e1]
  simp only [step, h1, h2]

theorem solo_pair (total sent : Int) (ws : List Worker) (sub : List Int) (w : Nat)
    (hw : ws[w]? = some Worker.claiming) (h1 : -2 ^ 31 ≤ sent + 1) (h2 : sent + 1 < 2 ^ 31)
    (h3 : sent < total) :
    run total ⟨sent, ws, sub⟩ [w, w] = ⟨sent + 1, ws, sub ++ [sent]⟩ := by
  have hwrap : wrapInt32 (sent + 1) = sent + 1 := by unfold wrapInt32; omega
  have hge : ¬ (sent + 1 - 1 ≥ total) := by omega
  simp only [run, List.foldl_cons, List.foldl_nil]
  rw [step_claim total sent ws sub w hw, hwrap, if_neg hge, step_submit total _ _ ws sub w hw]
  simp

theorem indicesFrom_succ (s : Int) (k : Nat) :
    indicesFrom s (k + 1) = s :: indicesFrom (s + 1) k := by
  unfold indicesFrom
  rw [List.range_succ_eq_map, List.map_cons, List.map_map]
  simp only [Nat.cast_zero, add_zero, List.cons.injEq, true_and]
  apply List.map_congr_left
  intro a _
  simp only [Function.comp, Nat.succ_eq_add_one, Nat.cast_add, Nat.cast_one]
  ring

theorem mem_indicesFrom (s : Int) (k j : Nat) (h : j < k) : s + (j : Int) ∈ indicesFrom s k :=
  List.mem_map.mpr ⟨j, List.mem_range.mpr h, rfl⟩

theorem solo_run (total : Int) (ws : List Worker) (w : Nat)
    (hw : ws[w]? = some Worker.claiming) :
    ∀ (k : Nat) (sent : Int) (sub : List Int), -2 ^ 31 ≤ sent + 1 → sent + k < 2 ^ 31 →
      sent + k ≤ total →
      run total ⟨sent, ws, sub⟩ (List.replicate (2 * k) w) =
        ⟨sent + k, ws, sub ++ indicesFrom sent k⟩ := by
  intro k
  induction k with
  | zero => intro sent sub _ _ _; simp [run, indicesFrom]
  | succ k ih =>
    intro sent sub h1 h2 h3
    have e : List.replicate (2 * (k + 1)) w = [w, w] ++ List.replicate (2 * k) w := by
      have : 2 * (k + 1) = (2 * k + 1) + 1 := by ring
      rw [this, List.replicate_succ, List.replicate_succ]
      rfl
    push_cast at h2 h3
    rw [e, run_append, solo_pair total sent ws sub w hw h1 (by omega) (by omega),
      ih (sent + 1) (sub ++ [sent]) (by omega) (by omega) (by omega), indicesFrom_succ]
    simp only [List.append_assoc, List.singleton_append, Pool.mk.injEq, and_true, true_and]
    push_cast
    ring


theorem run_cons (total : Int) (p : Pool) (w : Nat) (ws : List Nat) :
    run total p (w :: ws) = run total (step total p w) ws := rfl

theorem run_nil (total : Int) (p : Pool) : run total p [] = p := rfl

theorem wrap_run (chanCap T : Int) (a b : Nat) (ha : (a : Int) = T) (hT : T = 2 ^ 31 - 2)
    (hb : (b : Int) = 2 ^ 32 - 2) (hcap : T ≤ chanCap) :
    closedLoop chanCap T 2 (soloSchedule a b) =
      some ⟨2 ^ 31 - 1, [Worker.exited, Worker.exited],
        (indicesFrom 0 a ++ [-2 ^ 31 - 1]) ++ indicesFrom (-2 ^ 31) b⟩ := by
  have hinit : initPool 2 = ⟨0, [Worker.claiming, Worker.claiming], []⟩ := rfl
  have hnn : ¬ (T < 0 ∨ chanCap < T) := by omega
  have hwrapT : wrapInt32 (T + 1) = 2 ^ 31 - 1 := by unfold wrapInt32; omega
  have hgeT : (2 : Int) ^ 31 - 1 - 1 ≥ T := by omega
  have hwrap2 : wrapInt32 (2 ^ 31 - 1 + 1) = -2 ^ 31 := by unfold wrapInt32; omega
  have hlt2 : ¬ (-(2 : Int) ^ 31 - 1 ≥ T) := by omega
  have e0 : (0 : Int) + (a : Int) = T := by omega
  have e1 : -(2 : Int) ^ 31 + (b : Int) = T := by omega
  unfold closedLoop soloSchedule
  rw [if_neg hnn, hinit, run_append,
    solo_run T _ 0 rfl a 0 [] (by norm_num) (by omega) (by omega), e0, List.nil_append,
    run_append, run_cons, run_nil,
    step_claim T T [Worker.claiming, Worker.claiming] _ 0 rfl, hwrapT, if_pos hgeT]
  have hset : [Worker.claiming, Worker.claiming].set 0 Worker.exited =
      [Worker.exited, Worker.claiming] := rfl
  rw [hset, run_append, run_cons, run_cons, run_nil,
    step_claim T _ [Worker.exited, Worker.claiming] _ 1 rfl, hwrap2, if_neg hlt2,
    step_submit T _ _ [Worker.exited, Worker.claiming] _ 1 rfl, run_append,
    solo_run T _ 1 rfl b (-2 ^ 31) _ (by norm_num) (by omega) (by omega), e1,
    run_cons, run_nil, step_claim T T [Worker.exited, Worker.claiming] _ 1 rfl, hwrapT,
    if_pos hgeT]
  rfl

/-- C2 (as stated, refuted): with `total = 1` and no worker, all workers have exited and
index `0` was never submitted; with `total = 2147483646` and two workers there is an
interleaving after which both workers have exited, the index `-2147483649` was submitted
(the `int32` counter wrapped) and index `0` was submitted twice. -/
theorem closedLoop_skips_or_repeats :
    (∃ p, closedLoop chanCapLinux64 1 0 [] = some p ∧ allExited p = true ∧
      (0 : Int) ∉ p.submitted) ∧
    (∃ p, closedLoop chanCapLinux64 2147483646 2 (soloSchedule 2147483646 4294967294) =
        some p ∧
      allExited p = true ∧ (-2147483649 : Int) ∈ p.submitted ∧ ¬ p.submitted.Nodup) := by
  constructor
  · exact ⟨⟨0, [], []⟩, by decide, by decide, by decide⟩
  · refine ⟨_, wrap_run chanCapLinux64 2147483646 2147483646 4294967294 (by norm_num)
      (by norm_num) (by norm_num) (by decide), rfl, ?_, ?_⟩
    · apply List.mem_append_left
      apply List.mem_append_right
      simp
    · intro hnd
      have hdis := List.disjoint_of_nodup_append hnd
      have m1 : (0 : Int) ∈ indicesFrom 0 2147483646 ++ [-2 ^ 31 - 1] := by
        apply List.mem_append_left
        have := mem_indicesFrom 0 2147483646 0 (by norm_num)
        simpa using this
      have m2 : (0 : Int) ∈ indicesFrom (-2 ^ 31) 4294967294 := by
        have := mem_indicesFrom (-2 ^ 31) 4294967294 2147483648 (by norm_num)
        simpa using this
      exact hdis m1 m2

end TendermintBench
